import Mathlib

/-!
Shallow embedding of the logger-spirit core (recursive archive decoder,
workspace log index, and search engine) used to check the natural-language
specification against the implementation.

Conventions of the embedding:
* JavaScript strings are modelled as Lean `String` / `List Char`; a JS
  `Uint8Array` is a `List Nat` whose elements are the byte values.
* JS `Map` objects are association lists that keep insertion order:
  `set` overwrites in place or appends, `delete` removes, `size` is length.
* JS machinery with no pure counterpart (the `RegExp` engine, `Date.parse`,
  the `fflate` codecs) is passed in as an explicit function parameter; every
  theorem quantifies over those parameters, so nothing proved depends on
  their behaviour unless a hypothesis pins it down.
* `Array.prototype.sort` with a comparator is modelled by the stable
  `List.mergeSort` on the comparator-induced boolean order, which agrees
  with the ECMAScript requirement (stable sort, consistent comparator).
-/

/-- JS `String.prototype.toLowerCase`, modelled character-wise. -/
def jsToLower (s : String) : String :=
  String.mk (s.data.map Char.toLower)

/-- JS `String.prototype.toUpperCase`, modelled character-wise. -/
def jsToUpper (s : String) : String :=
  String.mk (s.data.map Char.toUpper)

/-- JS `String.prototype.includes`: substring containment. -/
def jsIncludes (s sub : String) : Bool :=
  decide (sub.data <:+: s.data)

/-- JS `String.prototype.startsWith`. -/
def jsStartsWith (s pre : String) : Bool :=
  decide (pre.data <+: s.data)

/-- JS `String.prototype.endsWith`. -/
def jsEndsWith (s suf : String) : Bool :=
  decide (suf.data <:+ s.data)

/-- Lexicographic (code-unit) strict comparison of character lists,
modelling the JS string order used by `localeCompare` in the default
locale-free reading. -/
def jsStrLtList : List Char → List Char → Bool
  | [], [] => false
  | [], _ :: _ => true
  | _ :: _, [] => false
  | x :: xs, y :: ys =>
    if x < y then true else if y < x then false else jsStrLtList xs ys

/-- Lexicographic strict comparison of strings. -/
def jsStrLt (a b : String) : Bool :=
  jsStrLtList a.data b.data

/-- The whitespace characters removed by JS `String.prototype.trim`
(ASCII range; the exotic Unicode space code points never occur in the
byte-derived strings this development handles). -/
def jsWhitespaceChar (c : Char) : Bool :=
  c = ' ' ∨ c = '\t' ∨ c = '\n' ∨ c = '\r' ∨ c = Char.ofNat 11 ∨ c = Char.ofNat 12

/-- JS `String.prototype.trim`. -/
def jsTrim (s : String) : String :=
  String.mk
    ((((s.data.dropWhile jsWhitespaceChar).reverse.dropWhile jsWhitespaceChar).reverse))

/-- Split a character list at every occurrence of the character c
(JS `String.prototype.split` with a one-character separator). -/
def splitChar (c : Char) : List Char → List (List Char)
  | [] => [[]]
  | x :: xs =>
    if x = c then [] :: splitChar c xs
    else
      match splitChar c xs with
      | [] => [[x]]
      | p :: ps => (x :: p) :: ps

/-- Join character lists with the character c between them
(JS `Array.prototype.join` with a one-character separator). -/
def joinChar (c : Char) : List (List Char) → List Char
  | [] => []
  | [p] => p
  | p :: ps => p ++ c :: joinChar c ps

/-- JS `text.split(/\r?\n/)` on the character level: a separator is a
newline optionally preceded by a single carriage return. -/
def splitLinesChars : List Char → List (List Char)
  | [] => [[]]
  | x :: xs =>
    if x = '\n' then [] :: splitLinesChars xs
    else if x = '\r' then
      match xs with
      | '\n' :: rest => [] :: splitLinesChars rest
      | [] => [[x]]
      | y :: ys =>
        match splitLinesChars (y :: ys) with
        | [] => [[x]]
        | p :: ps => (x :: p) :: ps
    else
      match splitLinesChars xs with
      | [] => [[x]]
      | p :: ps => (x :: p) :: ps

/-- JS `text.split(/\r?\n/)` as a String operation. -/
def splitLines (s : String) : List String :=
  (splitLinesChars s.data).map String.mk

/-- Association-list model of a JS `Map`: lookup by key. -/
def mapGet {α : Type} (m : List (String × α)) (k : String) : Option α :=
  match m.find? (fun p => p.1 = k) with
  | some p => some p.2
  | none => none

/-- Association-list model of JS `Map.prototype.set`: overwrite the existing
binding in place, otherwise append (preserving insertion order). -/
def mapSet {α : Type} (m : List (String × α)) (k : String) (v : α) :
    List (String × α) :=
  match m with
  | [] => [(k, v)]
  | (k0, v0) :: rest =>
    if k0 = k then (k, v) :: rest else (k0, v0) :: mapSet rest k v

/-- Association-list model of JS `Map.prototype.delete`. -/
def mapDelete {α : Type} (m : List (String × α)) (k : String) :
    List (String × α) :=
  match m with
  | [] => []
  | (k0, v0) :: rest =>
    if k0 = k then rest else (k0, v0) :: mapDelete rest k

/-! ## src/lib/path.ts -/

/-- JS `input.replaceAll("\\", "/")` on characters. -/
def replaceBackslash (l : List Char) : List Char :=
  l.map (fun c => if c = '\\' then '/' else c)

/-- Worker for `collapseSlashes`: the flag records whether the previous
kept character was a slash (so further slashes of the same run are
dropped). -/
def collapseGo (prevSlash : Bool) : List Char → List Char
  | [] => []
  | c :: rest =>
    if c = '/' then
      if prevSlash then collapseGo true rest else '/' :: collapseGo true rest
    else c :: collapseGo false rest

/-- JS `.replace(/\/+/g, "/")` on characters: collapse every run of
slashes to a single slash. -/
def collapseSlashes (l : List Char) : List Char :=
  collapseGo false l

/-- The `safe` accumulator loop of `normalizePath`: `"."` and empty parts
are skipped, `".."` pops the accumulator, anything else is pushed. -/
def normalizeStep (safe : List (List Char)) (part : List Char) :
    List (List Char) :=
  if part = ['.'] ∨ part = [] then safe
  else if part = ['.', '.'] then safe.dropLast
  else safe ++ [part]

/-- The segment list built by `normalizePath` for an input string:
backslashes replaced, slash runs collapsed, split on `/`, empty parts
filtered out (`filter(Boolean)`), then the `safe` loop. -/
def normalizeParts (input : String) : List (List Char) :=
  let cleaned := collapseSlashes (replaceBackslash input.data)
  let parts := (splitChar '/' cleaned).filter (fun p => p ≠ [])
  parts.foldl normalizeStep []

/-- `normalizePath` from src/lib/path.ts. -/
def normalizePath (input : String) : String :=
  String.mk (joinChar '/' (normalizeParts input))

/-- `splitPath` from src/lib/path.ts. -/
def splitPath (path : String) : List String :=
  let normalized := normalizePath path
  if normalized = "" then [] else (splitChar '/' normalized.data).map String.mk

/-- `joinPath` from src/lib/path.ts (variadic in the source; the list
argument holds the supplied parts in order; `Array.join("/")` is the
`/`-join of the character lists). -/
def joinPath (parts : List String) : String :=
  normalizePath
    (String.mk (joinChar '/' ((parts.filter (fun p => p ≠ "")).map String.data)))

/-- `getBaseName` from src/lib/path.ts. -/
def getBaseName (path : String) : String :=
  (splitPath path).getLast? |>.getD ""

/-- The archive extension list of src/lib/path.ts. -/
def ARCHIVE_EXTENSIONS : List String :=
  [".tar.gz", ".tgz", ".zip", ".tar"]

/-- `stripArchiveExtension` from src/lib/path.ts: drop the first matching
archive extension from the end of the (lowercased) name. -/
def stripArchiveExtension (fileName : String) : String :=
  let lower := jsToLower fileName
  match ARCHIVE_EXTENSIONS.find? (fun ext => jsEndsWith lower ext) with
  | some ext => String.mk (fileName.data.take (fileName.data.length - ext.data.length))
  | none => fileName

/-- `isArchiveFile` from src/lib/path.ts. -/
def isArchiveFile (fileName : String) : Bool :=
  let lower := jsToLower fileName
  ARCHIVE_EXTENSIONS.any (fun ext => jsEndsWith lower ext)

/-- `isZipFile` from src/lib/path.ts. -/
def isZipFile (fileName : String) : Bool :=
  jsEndsWith (jsToLower fileName) ".zip"

/-- `isTarGzFile` from src/lib/path.ts. -/
def isTarGzFile (fileName : String) : Bool :=
  let lower := jsToLower fileName
  jsEndsWith lower ".tar.gz" || jsEndsWith lower ".tgz"

/-- `isTarFile` from src/lib/path.ts. -/
def isTarFile (fileName : String) : Bool :=
  jsEndsWith (jsToLower fileName) ".tar"

example : normalizePath "a\\b//c/./d/../e" = "a/b/c/e" := by decide
example : normalizePath "../../x" = "x" := by decide
example : normalizePath "a/.." = "" := by decide
example : splitPath "a//b/" = ["a", "b"] := by decide
example : joinPath ["", "a/b", "c"] = "a/b/c" := by decide
example : getBaseName "x/y/z.log" = "z.log" := by decide
example : stripArchiveExtension "bundle.TAR.GZ" = "bundle" := by decide
example : isArchiveFile "a.tgz" = true := by decide

/-! ## src/lib/text.ts -/

/-- The extension allow-list of src/lib/text.ts (`LOG_FILE_EXTENSIONS`). -/
def LOG_FILE_EXTENSIONS : List String :=
  ["log", "txt", "out", "err", "json", "yaml", "yml", "xml", "csv",
   "conf", "cfg", "ini", "trace", "md"]

/-- The extension extracted by `isLikelyText`:
`name.split(".").pop()?.toLowerCase()` (JS `split` never yields an empty
array, so `pop` always returns the last piece). -/
def lastDotSegment (name : String) : String :=
  jsToLower (String.mk (((splitChar '.' name.data).getLast?).getD []))

/-- Whether the allow-list short-circuit of `isLikelyText` fires:
the extension is truthy (non-empty) and in the allow-list. -/
def hasAllowedExt (name : String) : Bool :=
  lastDotSegment name ≠ "" && lastDotSegment name ∈ LOG_FILE_EXTENSIONS

/-- The `binaryPoints` counter of `isLikelyText`: bytes with value `< 9`
or strictly between 13 and 32 (control characters outside the
tab..carriage-return range 9..13). -/
def countBinaryPoints (sample : List Nat) : Nat :=
  match sample with
  | [] => 0
  | v :: rest =>
    (if v < 9 ∨ (v > 13 ∧ v < 32) then 1 else 0) + countBinaryPoints rest

/-- `isLikelyText` from src/lib/text.ts.  The floating-point comparison
`binaryPoints / sampleLength < 0.08` is modelled by the exact rational
comparison `25 * binaryPoints < 2 * sampleLength`; the two agree for every
`sampleLength ≤ 2048` because rationals with denominator at most 2048 are
never within one double rounding error of the double nearest to 0.08. -/
def isLikelyText (bytes : List Nat) (name : String) : Bool :=
  if hasAllowedExt name then true
  else
    let sample := bytes.take 2048
    if sample.length = 0 then true
    else if sample.any (fun v => v = 0) then false
    else decide (25 * countBinaryPoints sample < 2 * sample.length)

example : isLikelyText [0] "a.log" = true := by decide
example : isLikelyText [0] "a.bin" = false := by decide
example : isLikelyText [] "a.bin" = true := by decide
example : isLikelyText [11, 11, 11] "a.bin" = true := by decide
example : isLikelyText [1, 65, 65, 65, 65, 65, 65, 65, 65, 65, 65, 65, 65]
    "a.bin" = true := by decide
example : isLikelyText [1, 65, 65, 65, 65, 65, 65, 65, 65, 65, 65, 65]
    "a.bin" = false := by decide
example : hasAllowedExt "log" = true := by decide

/-! ## A UTF-8 decoder (model of `new TextDecoder("utf-8").decode`).
Only used by the PAX attribute parser; the theorems below never depend on
its behaviour on non-ASCII input (malformed sequences become U+FFFD). -/

/-- One step of UTF-8 decoding: decode the first scalar value of the byte
list, returning the character and the number of bytes consumed (≥ 1). -/
def utf8Step (b : Nat) (rest : List Nat) : Char × Nat :=
  let cont := fun (x : Nat) => 0x80 ≤ x ∧ x < 0xC0
  let mk := fun (n : Nat) =>
    if n < 0xD800 ∨ (0xE000 ≤ n ∧ n < 0x110000) then Char.ofNat n
    else Char.ofNat 0xFFFD
  if b < 0x80 then (Char.ofNat b, 1)
  else if 0xC2 ≤ b ∧ b ≤ 0xDF then
    match rest with
    | b2 :: _ =>
      if cont b2 then (mk ((b - 0xC0) * 0x40 + (b2 - 0x80)), 2)
      else (Char.ofNat 0xFFFD, 1)
    | _ => (Char.ofNat 0xFFFD, 1)
  else if 0xE0 ≤ b ∧ b ≤ 0xEF then
    match rest with
    | b2 :: b3 :: _ =>
      if cont b2 ∧ cont b3 then
        (mk ((b - 0xE0) * 0x1000 + (b2 - 0x80) * 0x40 + (b3 - 0x80)), 3)
      else (Char.ofNat 0xFFFD, 1)
    | _ => (Char.ofNat 0xFFFD, 1)
  else if 0xF0 ≤ b ∧ b ≤ 0xF4 then
    match rest with
    | b2 :: b3 :: b4 :: _ =>
      if cont b2 ∧ cont b3 ∧ cont b4 then
        (mk ((b - 0xF0) * 0x40000 + (b2 - 0x80) * 0x1000 +
             (b3 - 0x80) * 0x40 + (b4 - 0x80)), 4)
      else (Char.ofNat 0xFFFD, 1)
    | _ => (Char.ofNat 0xFFFD, 1)
  else (Char.ofNat 0xFFFD, 1)

/-- UTF-8 decoding loop.  The first list is pure fuel (the recursion is
structural on it); each step consumes at least one byte of the second, so
passing the byte list itself as fuel is always enough. -/
def utf8DecodeGo : List Nat → List Nat → List Char
  | [], _ => []
  | _, [] => []
  | _ :: gas, b :: rest =>
    let (c, used) := utf8Step b rest
    c :: utf8DecodeGo gas ((b :: rest).drop used)

/-- Model of `new TextDecoder("utf-8", { fatal: false }).decode`. -/
def utf8Decode (bytes : List Nat) : String :=
  String.mk (utf8DecodeGo bytes bytes)

example : utf8Decode [104, 105] = "hi" := by decide
example : utf8Decode [0xE7, 0x86, 0x94] = "熔" := by decide

/-! ## src/lib/archive.ts — direct tar decoder -/

/-- `ArchiveEntry` from src/lib/archive.ts (`kind` is the source's string
union "file" | "dir"). -/
structure ArchiveEntry where
  path : String
  bytes : List Nat
  kind : String
deriving Repr, DecidableEq

/-- `readAscii` from src/lib/archive.ts: read up to `len` bytes starting
at `start`, stop at the first NUL, build a string from the char codes and
trim it. -/
def readAscii (view : List Nat) (start len : Nat) : String :=
  let seg := ((view.drop start).take len).takeWhile (fun b => b ≠ 0)
  jsTrim (String.mk (seg.map Char.ofNat))

/-- Octal digit test for the JS `Number.parseInt(_, 8)` model. -/
def isOctDigit (c : Char) : Bool :=
  decide ('0' ≤ c ∧ c ≤ '7')

/-- The longest leading run of octal digits, as a value; `none` when there
is no digit (JS `parseInt` returns NaN there). -/
def jsParseIntOctCore (l : List Char) : Option Int :=
  let digits := l.takeWhile isOctDigit
  if digits = [] then none
  else some (digits.foldl (fun acc c => acc * 8 + (c.toNat - '0'.toNat)) 0)

/-- JS `Number.parseInt(s, 8) || 0` on an already-trimmed string: optional
sign, greedy octal digits, NaN collapsed to 0. -/
def jsParseIntOct (l : List Char) : Int :=
  match l with
  | '-' :: rest => -((jsParseIntOctCore rest).getD 0)
  | '+' :: rest => (jsParseIntOctCore rest).getD 0
  | _ => (jsParseIntOctCore l).getD 0

/-- `parseTarSize` from src/lib/archive.ts. -/
def parseTarSize (value : String) : Int :=
  if value = "" then 0
  else
    let normalized := jsTrim (String.mk (value.data.filter (fun c => c ≠ Char.ofNat 0)))
    if normalized = "" then 0 else jsParseIntOct normalized.data

/-- One line of a PAX extended header: trim, require a space, split the
payload at the first `=` (lines without space or `=` are skipped). -/
def paxLineKV (line : String) : Option (String × String) :=
  let trimmed := jsTrim line
  if trimmed = "" then none
  else
    match trimmed.data.findIdx? (fun c => c = ' ') with
    | none => none
    | some i =>
      let payload := trimmed.data.drop (i + 1)
      match payload.findIdx? (fun c => c = '=') with
      | none => none
      | some j => some (String.mk (payload.take j), String.mk (payload.drop (j + 1)))

/-- `parsePax` from src/lib/archive.ts, as the ordered key/value list of
assignments (the JS object keeps the last assignment per key). -/
def parsePax (data : List Nat) : List (String × String) :=
  (((splitChar '\n' (utf8Decode data).data).map String.mk).filterMap paxLineKV)

/-- Lookup in the PAX assignment list: the last assignment wins, matching
JS object semantics. -/
def paxGet (attrs : List (String × String)) (k : String) : Option String :=
  (attrs.reverse.find? (fun p => p.1 = k)).map (fun p => p.2)

/-- Offset advance of one tar loop iteration:
`512 + Math.ceil(size / 512) * 512` (clamped at 0 for the pathological
negative sizes a malformed size field can produce). -/
def tarAdvance (size : Int) : Nat :=
  ((512 : Int) + ((size + 511).ediv 512) * 512).toNat

/-- The header-block loop of `parseTarEntries` from src/lib/archive.ts.
`rest` is the unread suffix of the byte stream and `pending` the
`pendingPath` variable.  The first list is pure fuel bounding the number
of loop iterations (the recursion is structural on it); the top-level
wrapper passes the whole byte stream, which is ample because every
iteration that makes progress consumes at least 512 bytes (a malformed
negative size field makes the JS loop spin forever at one offset; this
model stops instead, the only place it differs).  The loop guard
`offset + 512 <= bytes.length` is phrased as `(rest.drop 511).isEmpty`,
which is the same condition. -/
def parseTarGo : List Nat → List Nat → Option String → List ArchiveEntry
  | [], _, _ => []
  | _ :: gas, rest, pending =>
    if (rest.drop 511).isEmpty then []
    else
      let header := rest.take 512
      if header.all (fun v => v = 0) then []
      else
        let name := readAscii header 0 100
        let sizeRaw := readAscii header 124 12
        let typeFlag := Char.ofNat (header.getD 156 0)
        let pfx := readAscii header 345 155
        let base := if pfx ≠ "" then pfx ++ "/" ++ name else name
        let size := parseTarSize sizeRaw
        let content := (rest.drop 512).take size.toNat
        let next := rest.drop (tarAdvance size)
        if typeFlag = 'L' then
          parseTarGo gas next (some (readAscii content 0 content.length))
        else if typeFlag = 'x' then
          let pending2 :=
            match paxGet (parsePax content) "path" with
            | some v => if v ≠ "" then some v else pending
            | none => pending
          parseTarGo gas next pending2
        else
          let resolved := normalizePath (pending.getD base)
          let entries := parseTarGo gas next none
          if resolved ≠ "" then
            (if typeFlag = '5' then ArchiveEntry.mk resolved [] "dir"
             else ArchiveEntry.mk resolved content "file") :: entries
          else entries

/-- `parseTarEntries` from src/lib/archive.ts. -/
def parseTarEntries (bytes : List Nat) : List ArchiveEntry :=
  parseTarGo bytes bytes none

/-- One raw 512-byte-header record of a tar stream: type flag, short name
field, path-prefix field, and the content that follows the header. -/
structure TarRecord where
  typeFlag : Char
  name : String
  pfx : String
  content : List Nat
deriving Repr, DecidableEq

/-- The record stream of a tar byte stream: the same header-block loop as
`parseTarGo`, but recording every non-terminator header verbatim instead
of resolving names. -/
def tarRecordsGo : List Nat → List Nat → List TarRecord
  | [], _ => []
  | _ :: gas, rest =>
    if (rest.drop 511).isEmpty then []
    else
      let header := rest.take 512
      if header.all (fun v => v = 0) then []
      else
        let name := readAscii header 0 100
        let sizeRaw := readAscii header 124 12
        let typeFlag := Char.ofNat (header.getD 156 0)
        let pfx := readAscii header 345 155
        let size := parseTarSize sizeRaw
        let content := (rest.drop 512).take size.toNat
        let next := rest.drop (tarAdvance size)
        TarRecord.mk typeFlag name pfx content :: tarRecordsGo gas next

/-- The record stream of a tar byte stream. -/
def tarRecords (bytes : List Nat) : List TarRecord :=
  tarRecordsGo bytes bytes

/-- Name assembly over the record stream with a single last-writer-wins
pending override, the policy the code implements: a type-'L' record and a
path-carrying PAX record both overwrite the same pending slot, the most
recent one wins, and a consumed override is cleared. -/
def tarAssembleLastWins : Option String → List TarRecord → List ArchiveEntry
  | _, [] => []
  | pending, r :: rs =>
    if r.typeFlag = 'L' then
      tarAssembleLastWins (some (readAscii r.content 0 r.content.length)) rs
    else if r.typeFlag = 'x' then
      let pending2 :=
        match paxGet (parsePax r.content) "path" with
        | some v => if v ≠ "" then some v else pending
        | none => pending
      tarAssembleLastWins pending2 rs
    else
      let base := if r.pfx ≠ "" then r.pfx ++ "/" ++ r.name else r.name
      let resolved := normalizePath (pending.getD base)
      let entries := tarAssembleLastWins none rs
      if resolved ≠ "" then
        (if r.typeFlag = '5' then ArchiveEntry.mk resolved [] "dir"
         else ArchiveEntry.mk resolved r.content "file") :: entries
      else entries

/-- Name assembly following the claim's words: the PAX `path` value when a
preceding PAX record set one, *else* the pending long name when a
preceding type-'L' record set one, else prefix-joined name — PAX always
outranking the long name, with both slots cleared once an entry is
emitted. -/
def tarAssemblePaxFirst :
    Option String → Option String → List TarRecord → List ArchiveEntry
  | _, _, [] => []
  | paxPath, longName, r :: rs =>
    if r.typeFlag = 'L' then
      tarAssemblePaxFirst paxPath (some (readAscii r.content 0 r.content.length)) rs
    else if r.typeFlag = 'x' then
      let paxPath2 :=
        match paxGet (parsePax r.content) "path" with
        | some v => if v ≠ "" then some v else paxPath
        | none => paxPath
      tarAssemblePaxFirst paxPath2 longName rs
    else
      let base := if r.pfx ≠ "" then r.pfx ++ "/" ++ r.name else r.name
      let resolved := normalizePath ((paxPath.orElse (fun _ => longName)).getD base)
      let entries := tarAssemblePaxFirst none none rs
      if resolved ≠ "" then
        (if r.typeFlag = '5' then ArchiveEntry.mk resolved [] "dir"
         else ArchiveEntry.mk resolved r.content "file") :: entries
      else entries

/-- Byte-list literal helpers for concrete tar streams. -/
def strBytes (s : String) : List Nat :=
  s.data.map Char.toNat

/-- Pad a byte list with NULs up to a length. -/
def padTo (l : List Nat) (n : Nat) : List Nat :=
  l ++ List.replicate (n - l.length) 0

/-- Build one 512-byte tar header with the four fields the decoder reads. -/
def mkTarHeader (name sizeOctal : String) (typeFlag : Char) (pfx : String) :
    List Nat :=
  padTo (strBytes name) 100 ++ padTo [] 24 ++ padTo (strBytes sizeOctal) 12 ++
    padTo [] 20 ++ [typeFlag.toNat] ++ padTo [] 188 ++ padTo (strBytes pfx) 155 ++
    padTo [] 12

set_option maxRecDepth 100000

/-- A tar stream in which a PAX `path=A` record is followed by a GNU
long-name record naming `B`, before one ordinary zero-length file entry. -/
def paxThenLongTar : List Nat :=
  mkTarHeader "" "11" 'x' "" ++ padTo (strBytes "9 path=A\n") 512 ++
    mkTarHeader "" "1" 'L' "" ++ padTo (strBytes "B") 512 ++
    mkTarHeader "orig" "0" '0' ""


/-! ## src/lib/archive.ts — recursive extractor -/

/-- `ExtractedFile` from src/lib/archive.ts. -/
structure ExtractedFile where
  path : String
  size : Nat
  bytes : List Nat
  textLike : Bool
deriving Repr, DecidableEq

/-- `MAX_DEPTH` from src/lib/archive.ts. -/
def MAX_DEPTH : Nat := 12

/-- `isIgnorableMetadataPath` from src/lib/archive.ts. -/
def isIgnorableMetadataPath (entryPath : String) : Bool :=
  let normalized := normalizePath entryPath
  if normalized = "" then true
  else if jsStartsWith normalized "__MACOSX/" then true
  else
    let baseName := getBaseName normalized
    jsStartsWith baseName "._" || baseName = ".DS_Store"

/-- `hasZipSignature` from src/lib/archive.ts. -/
def hasZipSignature (bytes : List Nat) : Bool :=
  match bytes with
  | b0 :: b1 :: b2 :: b3 :: _ =>
    b0 = 0x50 ∧ b1 = 0x4b ∧ (b2 = 0x03 ∨ b2 = 0x05 ∨ b2 = 0x07) ∧
      (b3 = 0x04 ∨ b3 = 0x06 ∨ b3 = 0x08)
  | _ => false

/-- `hasGzipSignature` from src/lib/archive.ts. -/
def hasGzipSignature (bytes : List Nat) : Bool :=
  match bytes with
  | b0 :: b1 :: _ :: _ => b0 = 0x1f ∧ b1 = 0x8b
  | _ => false

/-- `hasTarSignature` from src/lib/archive.ts: at least 265 bytes and the
decoded window at offset 257 contains `ustar`. -/
def hasTarSignature (bytes : List Nat) : Bool :=
  decide (265 ≤ bytes.length) &&
    jsIncludes (utf8Decode ((bytes.drop 257).take 5)) "ustar"

/-- The type of the delegated `unzipSync` codec (fflate): entry paths with
their bytes, in object insertion order; `Except.error` models a thrown
exception. -/
def ZipCodec : Type := List Nat → Except String (List (String × List Nat))

/-- The type of the delegated `gunzipSync` codec (fflate). -/
def GzipCodec : Type := List Nat → Except String (List Nat)

/-- `parseArchiveEntries` from src/lib/archive.ts, parameterised by the
two delegated codecs. -/
def parseArchiveEntries (unzip : ZipCodec) (gunzip : GzipCodec)
    (fileName : String) (bytes : List Nat) : Except String (List ArchiveEntry) :=
  let shortName := getBaseName fileName
  if isZipFile shortName || hasZipSignature bytes then
    match unzip bytes with
    | Except.error e => Except.error e
    | Except.ok zipped =>
      Except.ok (zipped.map (fun p =>
        ArchiveEntry.mk (normalizePath p.1) p.2
          (if jsEndsWith p.1 "/" then "dir" else "file")))
  else if isTarGzFile shortName || hasGzipSignature bytes then
    match gunzip bytes with
    | Except.error e => Except.error e
    | Except.ok tarBytes => Except.ok (parseTarEntries tarBytes)
  else if isTarFile shortName || hasTarSignature bytes then
    Except.ok (parseTarEntries bytes)
  else Except.error ("Unsupported archive type: " ++ fileName)

/-- The entry loop of `walkArchive`: `recurse` is the nested
`walkArchive(entryName, entry.bytes, nextBase, depth + 1, output)` call of
the source, already specialised to the next depth; `Except.error` from it
is the caught exception that makes the entry fall back to a plain leaf. -/
def walkEntries (recurse : String → List Nat → String → Except String (List ExtractedFile)) :
    List ArchiveEntry → String → List ExtractedFile
  | [], _ => []
  | entry :: rest, basePath =>
    let entryPath := normalizePath entry.path
    if entryPath = "" ∨ entry.kind = "dir" ∨ isIgnorableMetadataPath entryPath then
      walkEntries recurse rest basePath
    else
      let mergedPath := joinPath [basePath, entryPath]
      let entryName := getBaseName entryPath
      let nested : Option (List ExtractedFile) :=
        if isArchiveFile entryName then
          match recurse entryName entry.bytes (stripArchiveExtension mergedPath) with
          | Except.ok files => some files
          | Except.error _ => none
        else none
      match nested with
      | some files => files ++ walkEntries recurse rest basePath
      | none =>
        ExtractedFile.mk mergedPath entry.bytes.length entry.bytes
            (isLikelyText entry.bytes entryName) ::
          walkEntries recurse rest basePath

/-- `walkArchive` from src/lib/archive.ts.  The extra `fuel` argument only
bounds the recursion for Lean; the top-level wrapper passes
`MAX_DEPTH + 2`, which the `depth > MAX_DEPTH` guard makes unreachable
(depth grows by one per level and the guard stops at `MAX_DEPTH + 1`), so
the fuel-exhausted branch never fires on a call reachable from
`extractArchiveRecursively`. -/
def walkArchive (unzip : ZipCodec) (gunzip : GzipCodec) :
    Nat → String → List Nat → String → Nat → Except String (List ExtractedFile)
  | 0, _, _, _, _ => Except.error "recursion fuel exhausted"
  | fuel + 1, fileName, bytes, basePath, depth =>
    if MAX_DEPTH < depth then
      let finalPath := joinPath [basePath, getBaseName fileName]
      Except.ok
        [ExtractedFile.mk finalPath bytes.length bytes (isLikelyText bytes finalPath)]
    else
      match parseArchiveEntries unzip gunzip fileName bytes with
      | Except.error e => Except.error e
      | Except.ok entries =>
        Except.ok
          (walkEntries
            (fun n b base => walkArchive unzip gunzip fuel n b base (depth + 1))
            entries basePath)

/-- `extractArchiveRecursively` from src/lib/archive.ts. -/
def extractArchiveRecursively (unzip : ZipCodec) (gunzip : GzipCodec)
    (fileName : String) (bytes : List Nat) : Except String (List ExtractedFile) :=
  walkArchive unzip gunzip (MAX_DEPTH + 2) fileName bytes "" 0

/-! ## src/workers/search-index.worker.ts — data model and indexing -/

/-- JS truthiness of an optional string (`undefined` and `""` are falsy). -/
def strTruthy (v : Option String) : Bool :=
  match v with
  | none => false
  | some s => s ≠ ""

/-- JS truthiness of an optional number (`undefined` and `0` are falsy). -/
def numTruthy (v : Option Int) : Bool :=
  match v with
  | none => false
  | some n => n ≠ 0

/-- `LineMeta` from the worker (the `namespace` field is spelt
`namespaceF` because `namespace` is a Lean keyword). -/
structure LineMeta where
  timestamp : Option Int
  traceId : Option String
  spanId : Option String
  pod : Option String
  container : Option String
  namespaceF : Option String
  level : Option String
  tags : List String
deriving Repr, DecidableEq

/-- The all-undefined line metadata (used only as an out-of-range default
for list indexing; the worker never reads out of range). -/
def emptyMeta : LineMeta :=
  LineMeta.mk none none none none none none none []

/-- `normalizeToken` from the worker. -/
def normalizeToken (value : Option String) : Option String :=
  match value with
  | none => none
  | some v =>
    if v = "" then none
    else
      let trimmed := jsTrim v
      if trimmed = "" then none else some trimmed

/-- The three regex/Date-based per-line extractors of the worker
(`parseTimestamp`, `parseLevel`, `parseKeyValue`), which lean on
`Date.parse` and dynamically built `RegExp`s; they are taken as
parameters, and every theorem below holds for all of them. -/
structure MetaParsers where
  parseTimestamp : String → Option Int
  parseLevel : String → Option String
  parseKeyValue : String → List String → Option String

/-- `detectTags` from the worker: lowercase-substring heuristics; the JS
`Set` accumulates each tag at most once, in condition order. -/
def detectTags (line : String) : List String :=
  let lower := jsToLower line
  (if jsIncludes lower "timeout" || jsIncludes lower "deadline exceeded" then
    ["timeout"] else []) ++
  (if jsIncludes lower "connection refused" || jsIncludes lower "conn refused" ||
      jsIncludes lower "econnrefused" then ["conn_refused"] else []) ++
  (if jsIncludes lower "retry" || jsIncludes lower "backoff" then ["retry"] else []) ++
  (if jsIncludes lower "circuit breaker" || jsIncludes lower "熔断" then
    ["circuit_breaker"] else []) ++
  (if jsIncludes lower "oom" || jsIncludes lower "outofmemory" then ["oom"] else []) ++
  (if jsIncludes lower "throttl" then ["throttling"] else []) ++
  (if jsIncludes lower "unavailable" || jsIncludes lower "503" then
    ["unavailable"] else [])

/-- `parseLineMeta` from the worker. -/
def parseLineMeta (P : MetaParsers) (line : String) : LineMeta :=
  LineMeta.mk
    (P.parseTimestamp line)
    (normalizeToken (P.parseKeyValue line ["traceId", "trace_id", "trace"]))
    (normalizeToken (P.parseKeyValue line ["spanId", "span_id", "span"]))
    (normalizeToken (P.parseKeyValue line ["pod", "podName", "pod_name"]))
    (normalizeToken (P.parseKeyValue line ["container", "containerName", "container_name"]))
    (normalizeToken (P.parseKeyValue line ["namespace", "ns", "k8s.namespace"]))
    (P.parseLevel line)
    (detectTags line)

/-- `IndexFilePayload` from the worker. -/
structure IndexFilePayload where
  workspaceId : String
  fileKey : String
  signature : String
  rootId : String
  sourceName : String
  filePath : String
  text : String
deriving Repr, DecidableEq

/-- `IndexedFile` from the worker. -/
structure IndexedFile where
  workspaceId : String
  fileKey : String
  signature : String
  rootId : String
  sourceName : String
  filePath : String
  text : String
  lowerText : String
  lines : List String
  lowerLines : List String
  lineMetas : List LineMeta
  anomalyTags : List String
deriving Repr, DecidableEq

/-- JS `Set.prototype.add` on an insertion-ordered list model. -/
def addToSet (acc : List String) (t : String) : List String :=
  if t ∈ acc then acc else acc ++ [t]

/-- `buildIndexedFile` from the worker: split into lines, derive per-line
metadata, accumulate the anomaly tag set and the count of `retry` tag
occurrences, and synthesize `retry_storm` at 20. -/
def buildIndexedFile (P : MetaParsers) (payload : IndexFilePayload) : IndexedFile :=
  let lines := splitLines payload.text
  let lowerLines := lines.map jsToLower
  let lineMetas := lines.map (parseLineMeta P)
  let allTags := (lineMetas.map (fun m => m.tags)).flatten
  let retryCount := allTags.countP (fun t => t = "retry")
  let anomalySet := allTags.foldl addToSet []
  let anomalySet := if 20 ≤ retryCount then addToSet anomalySet "retry_storm" else anomalySet
  IndexedFile.mk payload.workspaceId payload.fileKey payload.signature payload.rootId
    payload.sourceName payload.filePath payload.text (jsToLower payload.text)
    lines lowerLines lineMetas anomalySet

/-- `WorkspaceIndexState` from the worker. -/
structure WorkspaceState where
  files : List (String × IndexedFile)
  signatures : List (String × String)
deriving Repr, DecidableEq

/-- The fresh workspace created by `ensureWorkspace`. -/
def emptyWorkspace : WorkspaceState := WorkspaceState.mk [] []

/-- The global `workspaceIndexes` map of the worker. -/
def Workspaces : Type := List (String × WorkspaceState)

/-- `IndexDeltaRequest` from the worker (the `type` discriminant is
dropped; `totalFiles` is the caller-supplied expected total). -/
structure IndexDeltaRequest where
  workspaceId : String
  replace : Bool
  files : List IndexFilePayload
  removedFileKeys : List String
  totalFiles : Int
deriving Repr, DecidableEq

/-- `IndexStatusResponse` from the worker (without the `type` tag). -/
structure IndexStatusResponse where
  workspaceId : String
  indexedFiles : Nat
  changedFiles : Nat
  totalFiles : Int
deriving Repr, DecidableEq

/-- The per-file loop of `applyIndexDelta`: skip a file whose stored
signature equals the supplied one, otherwise parse and store file and
signature. -/
def applyDeltaFiles (P : MetaParsers) :
    List IndexFilePayload → WorkspaceState → WorkspaceState
  | [], w => w
  | f :: rest, w =>
    let w2 :=
      if mapGet w.signatures f.fileKey = some f.signature then w
      else
        WorkspaceState.mk (mapSet w.files f.fileKey (buildIndexedFile P f))
          (mapSet w.signatures f.fileKey f.signature)
    applyDeltaFiles P rest w2

/-- `applyIndexDelta` from the worker, returning the updated global map
together with the status response. -/
def applyIndexDelta (P : MetaParsers) (workspaces : Workspaces)
    (request : IndexDeltaRequest) : Workspaces × IndexStatusResponse :=
  let w0 := (mapGet workspaces request.workspaceId).getD emptyWorkspace
  let w1 := if request.replace then emptyWorkspace else w0
  let w2 := WorkspaceState.mk
    (request.removedFileKeys.foldl mapDelete w1.files)
    (request.removedFileKeys.foldl mapDelete w1.signatures)
  let w3 := applyDeltaFiles P request.files w2
  (mapSet workspaces request.workspaceId w3,
   IndexStatusResponse.mk request.workspaceId w3.files.length
     request.files.length request.totalFiles)

/-! ## src/workers/search-index.worker.ts — search engine -/

/-- `SearchFilters` from src/types/logspace.ts. -/
structure SearchFilters where
  pod : Option String
  container : Option String
  namespaceF : Option String
  level : Option String
  timeFrom : Option Int
  timeTo : Option Int
deriving Repr, DecidableEq

/-- The all-unset filter record. -/
def noFilters : SearchFilters := SearchFilters.mk none none none none none none

/-- `SearchOptions` from src/types/logspace.ts. -/
structure SearchOptions where
  regex : Bool
  caseSensitive : Bool
  realtime : Bool
  contextLines : Int
  maxResults : Int
  filters : SearchFilters
deriving Repr, DecidableEq

/-- `SearchRequest` from the worker (without the `type` tag). -/
structure SearchRequest where
  requestId : String
  workspaceId : String
  query : String
  options : SearchOptions
deriving Repr, DecidableEq

/-- `SearchResult` from src/types/logspace.ts. -/
structure SearchResult where
  id : String
  fileKey : String
  rootId : String
  sourceName : String
  filePath : String
  line : Nat
  preview : String
  before : List String
  after : List String
  timestamp : Option Int
  traceId : Option String
  spanId : Option String
  pod : Option String
  container : Option String
  namespaceF : Option String
  level : Option String
  tags : List String
deriving Repr, DecidableEq

/-- `TimelineEvent` from src/types/logspace.ts. -/
structure TimelineEvent where
  id : String
  timestamp : Option Int
  traceId : Option String
  spanId : Option String
  rootId : String
  sourceName : String
  filePath : String
  line : Nat
  message : String
  level : Option String
deriving Repr, DecidableEq

/-- `SearchAggregation` from src/types/logspace.ts: count buckets are JS
objects, modelled as insertion-ordered association lists. -/
structure SearchAggregation where
  byLevel : List (String × Nat)
  byPod : List (String × Nat)
  byNamespace : List (String × Nat)
  bySource : List (String × Nat)
  byTag : List (String × Nat)
deriving Repr, DecidableEq

/-- `createAggregation` from the worker. -/
def createAggregation : SearchAggregation := SearchAggregation.mk [] [] [] [] []

/-- `SearchResponse` from the worker (without the `type` tag). -/
structure SearchResponse where
  requestId : String
  query : String
  results : List SearchResult
  matchedFiles : List String
  aggregations : SearchAggregation
  timeline : List TimelineEvent
  totalIndexedFiles : Nat
  error : Option String
deriving Repr, DecidableEq

/-- `addCount` from the worker (`if (!key) return` is JS truthiness, so
`undefined` and the empty string are both skipped). -/
def addCount (bucket : List (String × Nat)) (key : Option String) :
    List (String × Nat) :=
  match key with
  | none => bucket
  | some k =>
    if k = "" then bucket
    else mapSet bucket k ((mapGet bucket k).getD 0 + 1)

/-- `includesCaseAware` from the worker. -/
def includesCaseAware (raw lower query : String) (caseSensitive : Bool) : Bool :=
  if caseSensitive then jsIncludes raw query
  else jsIncludes lower (jsToLower query)

/-- `matchesFilters` from the worker. -/
def matchesFilters (meta : LineMeta) (filters : SearchFilters) : Bool :=
  if strTruthy filters.level ∧ meta.level ≠ some (jsToUpper (filters.level.getD "")) then
    false
  else if strTruthy filters.pod ∧
      ¬(strTruthy meta.pod ∧
        jsIncludes (jsToLower (meta.pod.getD "")) (jsToLower (filters.pod.getD ""))) then
    false
  else if strTruthy filters.container ∧
      ¬(strTruthy meta.container ∧
        jsIncludes (jsToLower (meta.container.getD ""))
          (jsToLower (filters.container.getD ""))) then
    false
  else if strTruthy filters.namespaceF ∧
      ¬(strTruthy meta.namespaceF ∧
        jsIncludes (jsToLower (meta.namespaceF.getD ""))
          (jsToLower (filters.namespaceF.getD ""))) then
    false
  else if filters.timeFrom.isSome ∧
      (¬numTruthy meta.timestamp ∨ meta.timestamp.getD 0 < filters.timeFrom.getD 0) then
    false
  else if filters.timeTo.isSome ∧
      (¬numTruthy meta.timestamp ∨ filters.timeTo.getD 0 < meta.timestamp.getD 0) then
    false
  else true

/-- `compressPreview` from the worker. -/
def compressPreview (line : String) (maxLength : Nat) : String :=
  let normalized := jsTrim line
  if normalized.data.length ≤ maxLength then normalized
  else String.mk (normalized.data.take maxLength) ++ "..."

/-- The `hasAnyFilter` test of `runSearch`. -/
def hasAnyFilter (f : SearchFilters) : Bool :=
  strTruthy f.level || strTruthy f.namespaceF || strTruthy f.pod ||
    strTruthy f.container || f.timeFrom.isSome || f.timeTo.isSome

/-- The running state of the `runSearch` scan (its four accumulator
variables `results`, `matchedFiles`, `aggregation`, `timeline`). -/
structure SearchState where
  results : List SearchResult
  matched : List String
  agg : SearchAggregation
  timeline : List TimelineEvent
deriving Repr, DecidableEq

/-- The initial scan state. -/
def emptyState : SearchState := SearchState.mk [] [] createAggregation []

/-- The fixed parameters of one `runSearch` scan: the trimmed query, the
compiled regex tester (when in regex mode), the options, and the clamped
result/context bounds. -/
structure SearchCtx where
  query : String
  regex : Option (String → Bool)
  options : SearchOptions
  maxResults : Nat
  contextLines : Nat

/-- Whether one line matches the query (`queryMatched` in the worker). -/
def lineQueryMatched (C : SearchCtx) (line lineLower : String) : Bool :=
  if C.query ≠ "" then
    match C.regex with
    | some m => m line
    | none => includesCaseAware line lineLower C.query C.options.caseSensitive
  else true

/-- Whether line `i` of `entry` qualifies (query match plus filters). -/
def lineQualifies (C : SearchCtx) (entry : IndexedFile) (i : Nat) : Bool :=
  lineQueryMatched C (entry.lines.getD i "") (entry.lowerLines.getD i "") &&
    matchesFilters (entry.lineMetas.getD i emptyMeta) C.options.filters

/-- Build the `SearchResult` for qualifying line `i` of `entry`. -/
def mkResult (C : SearchCtx) (entry : IndexedFile) (i : Nat) : SearchResult :=
  let line := entry.lines.getD i ""
  let meta := entry.lineMetas.getD i emptyMeta
  let start := i - C.contextLines
  SearchResult.mk (entry.fileKey ++ ":" ++ toString i) entry.fileKey entry.rootId
    entry.sourceName entry.filePath (i + 1) (compressPreview line 160)
    ((entry.lines.drop start).take (i - start))
    ((entry.lines.drop (i + 1)).take C.contextLines)
    meta.timestamp meta.traceId meta.spanId meta.pod meta.container meta.namespaceF
    meta.level meta.tags

/-- Build the `TimelineEvent` for qualifying line `i` of `entry`. -/
def mkTimelineEvent (entry : IndexedFile) (i : Nat) : TimelineEvent :=
  let line := entry.lines.getD i ""
  let meta := entry.lineMetas.getD i emptyMeta
  TimelineEvent.mk ("tl:" ++ entry.fileKey ++ ":" ++ toString i) meta.timestamp
    meta.traceId meta.spanId entry.rootId entry.sourceName entry.filePath (i + 1)
    (compressPreview line 140) meta.level

/-- State update for one qualifying line: push the result, record the
file, bump the aggregation buckets, and push a timeline event when the
line carries a (truthy) timestamp, traceId or spanId. -/
def pushLine (C : SearchCtx) (entry : IndexedFile) (i : Nat) (st : SearchState) :
    SearchState :=
  let meta := entry.lineMetas.getD i emptyMeta
  SearchState.mk
    (st.results ++ [mkResult C entry i])
    (addToSet st.matched entry.fileKey)
    (SearchAggregation.mk
      (addCount st.agg.byLevel meta.level)
      (addCount st.agg.byPod meta.pod)
      (addCount st.agg.byNamespace meta.namespaceF)
      (addCount st.agg.bySource (some entry.sourceName))
      (meta.tags.foldl (fun b t => addCount b (some t)) st.agg.byTag))
    (if numTruthy meta.timestamp || strTruthy meta.traceId || strTruthy meta.spanId then
      st.timeline ++ [mkTimelineEvent entry i]
     else st.timeline)

/-- The inner line loop of `runSearch` over the listed line indices,
threading the scan state and the per-file `fileMatchedTags` set; it stops
as soon as `maxResults` results have been collected. -/
def searchLines (C : SearchCtx) (entry : IndexedFile) :
    List Nat → SearchState → List String → SearchState × List String
  | [], st, ftags => (st, ftags)
  | i :: rest, st, ftags =>
    if lineQualifies C entry i then
      let meta := entry.lineMetas.getD i emptyMeta
      let ftags2 := meta.tags.foldl addToSet ftags
      let st2 := pushLine C entry i st
      if C.maxResults ≤ st2.results.length then (st2, ftags2)
      else searchLines C entry rest st2 ftags2
    else searchLines C entry rest st ftags

/-- The per-file body of `runSearch`: run the line loop over all lines,
then count the file-level anomaly tags (only when the file is matched)
and the tags of matched lines into the `byTag` bucket. -/
def searchFile (C : SearchCtx) (entry : IndexedFile) (st : SearchState) :
    SearchState :=
  let scanned := searchLines C entry (List.range entry.lines.length) st []
  let st2 := scanned.1
  let ftags := scanned.2
  let byTag2 := entry.anomalyTags.foldl
    (fun b t => if entry.fileKey ∈ st2.matched then addCount b (some t) else b)
    st2.agg.byTag
  let byTag3 := ftags.foldl (fun b t => addCount b (some t)) byTag2
  SearchState.mk st2.results st2.matched
    (SearchAggregation.mk st2.agg.byLevel st2.agg.byPod st2.agg.byNamespace
      st2.agg.bySource byTag3)
    st2.timeline

/-- The whole-file pre-check of `runSearch`: in regex mode the regex is
tested against the entire file text, otherwise the query substring is
looked up in the entire file text. -/
def filePreCheck (C : SearchCtx) (entry : IndexedFile) : Bool :=
  match C.regex with
  | some m => m entry.text
  | none => includesCaseAware entry.text entry.lowerText C.query C.options.caseSensitive

/-- The outer file loop of `runSearch`: skip a file that fails the
pre-check when a query is present, and stop once `maxResults` results
are collected. -/
def searchFiles (C : SearchCtx) : List IndexedFile → SearchState → SearchState
  | [], st => st
  | entry :: rest, st =>
    if ¬filePreCheck C entry ∧ C.query ≠ "" then searchFiles C rest st
    else
      let st2 := searchFile C entry st
      if C.maxResults ≤ st2.results.length then st2
      else searchFiles C rest st2

/-- The timeline comparator of `runSearch` (its result sign; JS
`localeCompare` is modelled as code-unit lexicographic comparison). -/
def tlCmp (a b : TimelineEvent) : Int :=
  match a.timestamp, b.timestamp with
  | some ta, some tb => ta - tb
  | some _, none => -1
  | none, some _ => 1
  | none, none => if jsStrLt a.id b.id then -1 else if jsStrLt b.id a.id then 1 else 0

/-- The boolean order induced by the timeline comparator. -/
def tlLeB (a b : TimelineEvent) : Bool :=
  decide (tlCmp a b ≤ 0)

/-- The type of the `new RegExp(query, flags)` constructor: it either
yields a tester or throws (`Except.error` carries `String(error)`). -/
def RegexCompiler : Type := String → String → Except String (String → Bool)

/-- `Math.max(0, Math.min(options.contextLines, 8))`. -/
def clampContext (options : SearchOptions) : Nat :=
  (min options.contextLines 8).toNat

/-- `Math.max(20, Math.min(options.maxResults, 3000))`. -/
def clampMaxResults (options : SearchOptions) : Nat :=
  (max 20 (min options.maxResults 3000)).toNat

/-- The scan context of one search request given its compiled regex. -/
def mkSearchCtx (regex : Option (String → Bool)) (request : SearchRequest) :
    SearchCtx :=
  SearchCtx.mk (jsTrim request.query) regex request.options
    (clampMaxResults request.options) (clampContext request.options)

/-- The accumulated scan state of one search request over a workspace
(before timeline sorting). -/
def runSearchState (regex : Option (String → Bool)) (ws : WorkspaceState)
    (request : SearchRequest) : SearchState :=
  searchFiles (mkSearchCtx regex request) (ws.files.map (fun p => p.2)) emptyState

/-- `runSearch` from the worker, parameterised by the `RegExp`
constructor.  `ensureWorkspace` may insert a fresh empty workspace into
the global map; since an absent and an empty workspace behave identically
everywhere, the model reads the workspace without returning the updated
map. -/
def runSearch (compile : RegexCompiler) (workspaces : Workspaces)
    (request : SearchRequest) : SearchResponse :=
  let ws := (mapGet workspaces request.workspaceId).getD emptyWorkspace
  let query := jsTrim request.query
  let options := request.options
  if query = "" ∧ ¬hasAnyFilter options.filters then
    SearchResponse.mk request.requestId query [] [] createAggregation []
      ws.files.length none
  else
    let compiled : Except String (Option (String → Bool)) :=
      if options.regex then
        (compile query (if options.caseSensitive then "" else "i")).map some
      else Except.ok none
    match compiled with
    | Except.error e =>
      SearchResponse.mk request.requestId query [] [] createAggregation []
        ws.files.length (some ("正则表达式无效: " ++ e))
    | Except.ok regex =>
      let core := runSearchState regex ws request
      SearchResponse.mk request.requestId query core.results core.matched core.agg
        ((core.timeline.mergeSort tlLeB).take 500) ws.files.length none

/-! ## Claim-side definitions (each follows the words of a claim, for
comparison with the code-derived definitions above) and concrete fixtures
for witnesses and counterexamples. -/

/-- The indices of the qualifying lines of a file: line matches the query
and every supplied filter matches the line metadata. -/
def qualifyingIdxs (C : SearchCtx) (entry : IndexedFile) : List Nat :=
  (List.range entry.lines.length).filter (lineQualifies C entry)

/-- The results a file contributes according to the code's scan, pre-check
included: nothing when the whole-file pre-check fails, otherwise one
result per qualifying line. -/
def fileResultsSpec (C : SearchCtx) (entry : IndexedFile) : List SearchResult :=
  if filePreCheck C entry then (qualifyingIdxs C entry).map (mkResult C entry)
  else []

/-- The results a file contributes according to claim C1 as stated: one
result per qualifying line, with no whole-file pre-check. -/
def fileResultsPlain (C : SearchCtx) (entry : IndexedFile) : List SearchResult :=
  (qualifyingIdxs C entry).map (mkResult C entry)

/-- The stored-field consistency `buildIndexedFile` establishes: the line
list is the split of the text, and the lowercase mirrors are the
lowercase of text and lines. -/
def textConsistent (e : IndexedFile) : Prop :=
  e.lines = splitLines e.text ∧ e.lowerLines = e.lines.map jsToLower ∧
    e.lowerText = jsToLower e.text

/-- Timeline ordering stated by claim C2: ascending timestamps, untimed
entries after all timed ones, and every tie — equal timestamps included —
broken by lexical comparison of the event id. -/
def claimTimelineLeB (a b : TimelineEvent) : Bool :=
  match a.timestamp, b.timestamp with
  | some ta, some tb => decide (ta < tb) || (decide (ta = tb) && !jsStrLt b.id a.id)
  | some _, none => true
  | none, some _ => false
  | none, none => !jsStrLt b.id a.id

/-- Adjacent-pairs sortedness for the claim C2 ordering. -/
def claimTimelineSortedB : List TimelineEvent → Bool
  | [] => true
  | [_] => true
  | a :: b :: rest => claimTimelineLeB a b && claimTimelineSortedB (b :: rest)

/-- The changed-file count stated by claim C4: the number of supplied
files that are actually re-parsed because their stored signature differs
from the supplied one (walking the supplied list in order, updating the
signature table exactly as the loop does). -/
def reparsedCountSpec : List IndexFilePayload → List (String × String) → Nat
  | [], _ => 0
  | f :: rest, sigs =>
    if mapGet sigs f.fileKey = some f.signature then reparsedCountSpec rest sigs
    else 1 + reparsedCountSpec rest (mapSet sigs f.fileKey f.signature)

/-- The binary test stated by claim C5: some sampled byte is NUL, or the
fraction of sampled bytes that are control characters other than tab, LF
and CR is at least 8%. -/
def isBinaryPerClaimC5 (bytes : List Nat) : Bool :=
  let sample := bytes.take 2048
  sample.any (fun v => v = 0) ||
    decide (8 * sample.length ≤
      100 * sample.countP (fun v => v < 32 ∧ v ≠ 9 ∧ v ≠ 10 ∧ v ≠ 13))

/-- A path all of whose `/`-separated segments are non-empty and neither
`.` nor `..` (claim C7's invariant). -/
def goodPathSegs (p : String) : Prop :=
  ∀ s ∈ splitChar '/' p.data, s ≠ [] ∧ s ≠ ['.'] ∧ s ≠ ['.', '.']

/-- Trivial per-line parsers (every regex/Date-based extractor yields
nothing) used to instantiate parser parameters in concrete runs. -/
def stubParsers : MetaParsers :=
  MetaParsers.mk (fun _ => none) (fun _ => none) (fun _ _ => none)

/-- A regex constructor that is never consulted (text-mode fixtures). -/
def unusedCompiler : RegexCompiler :=
  fun _ _ => Except.error "never consulted"

/-- A regex constructor that always throws, modelling a pattern the JS
`RegExp` constructor rejects. -/
def failingCompiler : RegexCompiler :=
  fun _ _ => Except.error "SyntaxError: Invalid regular expression"

/-- The tester of the JS regex `/^foo$/`: without the `m` flag, `^` and
`$` anchor to the whole input, so the test accepts exactly the string
`foo`. -/
def anchoredFooRegex : String → Bool :=
  fun s => s = "foo"

/-- A zip codec stub that never succeeds (fixtures that exercise only the
tar paths or the depth cap). -/
def stubZip : ZipCodec := fun _ => Except.error "unzipSync failed"

/-- A gzip codec stub that never succeeds. -/
def stubGzip : GzipCodec := fun _ => Except.error "gunzipSync failed"

/-- A zip codec returning a fixed listing with traversal-style names,
regardless of input (for the C7 witness). -/
def fixedZip : ZipCodec :=
  fun _ => Except.ok
    [("__MACOSX/._x.log", [1]),
     ("logs//", []),
     ("..\\..\\evil/./deep.log", [104, 105]),
     ("a/../b.log", [0x50, 0x4b])]

/-- An indexed file as stored for a one-line log body with a fixed
timestamp on its only line (for the C2 counterexample fixture). -/
def tsEntry (fk : String) : IndexedFile :=
  IndexedFile.mk "w" fk "sig" "root" "src" ("p/" ++ fk) "x" "x" ["x"] ["x"]
    [LineMeta.mk (some 5) none none none none none none []] []

/-- A workspace holding two such files whose insertion order (`b` before
`a`) is the reverse of the lexical order of their timeline event ids. -/
def twinTsWorkspaces : Workspaces :=
  [("w", WorkspaceState.mk [("b", tsEntry "b"), ("a", tsEntry "a")] [])]

/-- Options: plain text search, defaults, no filters. -/
def plainOptions : SearchOptions :=
  SearchOptions.mk false false false 2 100 noFilters

/-- The search request used by the C2 counterexample. -/
def twinTsRequest : SearchRequest :=
  SearchRequest.mk "rq" "w" "x" plainOptions

/-- Options for a case-sensitive regex search. -/
def regexOptions : SearchOptions :=
  SearchOptions.mk true true false 2 100 noFilters

/-- The stored index entry for a file whose text `bar\nfoo` matches
`/^foo$/` on its second line but not as a whole (C1 counterexample). -/
def anchoredEntry : IndexedFile :=
  buildIndexedFile stubParsers
    (IndexFilePayload.mk "w" "k" "sig" "root" "src" "p/a.log" "bar\nfoo")

/-- A workspace holding only that file. -/
def anchoredWorkspaces : Workspaces :=
  [("w", WorkspaceState.mk [("k", anchoredEntry)] [])]

/-- The `/^foo$/` search request over it. -/
def anchoredRequest : SearchRequest :=
  SearchRequest.mk "rq" "w" "^foo$" regexOptions

/-- The one-file delta used by the C4 counterexample. -/
def oneFileDelta : IndexDeltaRequest :=
  IndexDeltaRequest.mk "w" false
    [IndexFilePayload.mk "w" "k" "s1" "root" "src" "p/a.log" "hello"] [] 1

/-- The workspace map after that delta has been applied once. -/
def oneFileWorkspaces : Workspaces :=
  (applyIndexDelta stubParsers [] oneFileDelta).1

/-- A clean path segment: non-empty, not a dot segment, and free of both
separators (claim C7's working invariant). -/
def cleanSeg (s : List Char) : Prop :=
  s ≠ [] ∧ s ≠ ['.'] ∧ s ≠ ['.', '.'] ∧ '/' ∉ s ∧ '\\' ∉ s

/-- A string in the normal form `normalizePath` produces when its result
is non-empty: a non-empty list of clean segments joined by `/`. -/
def normalForm (t : String) : Prop :=
  ∃ segs, segs ≠ [] ∧ (∀ s ∈ segs, cleanSeg s) ∧ t.data = joinChar '/' segs

/-- The constructor wrapper of the C1 counterexample: compiling any
pattern yields the `/^foo$/` tester. -/
def anchoredCompiler : RegexCompiler :=
  fun _ _ => Except.ok anchoredFooRegex

/-- A plain text-mode search request for `foo` over the same workspace
(the C1 witness input). -/
def plainFooRequest : SearchRequest :=
  SearchRequest.mk "rq" "w" "foo" plainOptions

/-! ## Theorems -/

/-- Claim C10: a zero-length blob whose name carries no allow-listed text
extension is classified as searchable text (`textLike = true`). -/
theorem empty_blob_is_text (bytes : List Nat) (name : String)
    (h0 : bytes.length = 0) (hext : hasAllowedExt name = false) :
    isLikelyText bytes name = true := by
  have hb : bytes = [] := List.length_eq_zero.mp h0
  subst hb
  simp [isLikelyText, hext]

/-- Witness for C10 at a concrete input. -/
theorem empty_blob_is_text_witness :
    ([] : List Nat).length = 0 ∧ hasAllowedExt "core.bin" = false ∧
      isLikelyText [] "core.bin" = true :=
  ⟨by decide, by decide, empty_blob_is_text [] "core.bin" (by decide) (by decide)⟩

/-- Claim C5, counterexample: a blob consisting of one vertical-tab byte
(0x0B) has a 100% fraction of control characters outside tab/LF/CR, so
the claim classifies it binary, but the code counts only control
characters outside the whole 9..13 range and classifies it as text. -/
theorem vertical_tab_refutes_claimed_classifier :
    hasAllowedExt "data.bin" = false ∧ isBinaryPerClaimC5 [11] = true ∧
      isLikelyText [11] "data.bin" = true ∧
      ¬(isLikelyText [11] "data.bin" = false ↔ isBinaryPerClaimC5 [11] = true) := by
  decide

/-- Helper: the `binaryPoints` counter counts the bytes outside 9..13
that are control characters. -/
theorem countBinaryPoints_eq_countP (l : List Nat) :
    countBinaryPoints l = l.countP (fun v => v < 32 ∧ ¬(9 ≤ v ∧ v ≤ 13)) := by
  induction l with
  | nil => rfl
  | cons v rest ih =>
    simp only [countBinaryPoints, List.countP_cons, ih]
    by_cases h : v < 32 ∧ ¬(9 ≤ v ∧ v ≤ 13)
    · rw [if_pos (show v < 9 ∨ (v > 13 ∧ v < 32) by omega),
        if_pos (show decide (v < 32 ∧ ¬(9 ≤ v ∧ v ≤ 13)) = true by
          simp only [decide_eq_true_eq]; exact h)]
      omega
    · rw [if_neg (show ¬(v < 9 ∨ (v > 13 ∧ v < 32)) by omega),
        if_neg (show ¬(decide (v < 32 ∧ ¬(9 ≤ v ∧ v ≤ 13)) = true) by
          simp only [decide_eq_true_eq]; exact h)]
      omega

/-- Claim C5, amended: for a non-empty blob with no allow-listed text
extension, the classifier samples the first min(2048, length) bytes and
reports binary exactly when some sampled byte is NUL or the fraction of
sampled bytes that are control characters outside the tab..carriage-return
range 9..13 (tab, LF, VT, FF, CR) is at least 8%. -/
theorem classifier_binary_iff (bytes : List Nat) (name : String)
    (hext : hasAllowedExt name = false) (hne : bytes ≠ []) :
    isLikelyText bytes name = false ↔
      ((bytes.take 2048).any (fun v => v = 0) = true ∨
        8 * (bytes.take 2048).length ≤
          100 * (bytes.take 2048).countP (fun v => v < 32 ∧ ¬(9 ≤ v ∧ v ≤ 13))) := by
  have hlen : (bytes.take 2048).length ≠ 0 := by
    cases bytes with
    | nil => exact absurd rfl hne
    | cons b rest => simp [List.length_take]
  unfold isLikelyText
  rw [if_neg (by simp [hext]), if_neg hlen]
  by_cases hany : (bytes.take 2048).any (fun v => v = 0) = true
  · simp [hany]
  · rw [if_neg hany]
    simp only [hany, false_or, decide_eq_false_iff_not, not_lt,
      countBinaryPoints_eq_countP]
    constructor
    · intro h
      exact Or.inr (by omega)
    · intro h
      rcases h with h | h
      · simp at h
      · omega

/-- Witness for the amended C5 at a concrete input: a single 0x01 byte is
classified binary both by the code and by the amended fraction rule. -/
theorem classifier_binary_iff_witness :
    hasAllowedExt "data.bin" = false ∧ ([1] : List Nat) ≠ [] ∧
      (isLikelyText [1] "data.bin" = false ↔
        ((([1] : List Nat).take 2048).any (fun v => v = 0) = true ∨
          8 * (([1] : List Nat).take 2048).length ≤
            100 * (([1] : List Nat).take 2048).countP
              (fun v => v < 32 ∧ ¬(9 ≤ v ∧ v ≤ 13)))) :=
  ⟨by decide, by decide, classifier_binary_iff [1] "data.bin" (by decide) (by decide)⟩

/-- Claim C6: at any depth beyond the fixed cap of 12, the walker emits
exactly one leaf whose bytes are the input bytes verbatim and whose path
is `join(basePath, baseName(fileName))`, and performs no container
decoding or recursion at all (any codec behaviour, any remaining fuel). -/
theorem depth_cap_single_leaf (unzip : ZipCodec) (gunzip : GzipCodec)
    (fuel : Nat) (fileName : String) (bytes : List Nat) (basePath : String)
    (depth : Nat) (h : MAX_DEPTH < depth) :
    walkArchive unzip gunzip (fuel + 1) fileName bytes basePath depth =
      Except.ok
        [ExtractedFile.mk (joinPath [basePath, getBaseName fileName]) bytes.length
          bytes (isLikelyText bytes (joinPath [basePath, getBaseName fileName]))] := by
  simp [walkArchive, h]

/-- Witness for C6 at a concrete input (depth 13, three raw bytes). -/
theorem depth_cap_single_leaf_witness :
    MAX_DEPTH < 13 ∧
      walkArchive stubZip stubGzip 1 "f.bin" [1, 2, 3] "base" 13 =
        Except.ok
          [ExtractedFile.mk (joinPath ["base", getBaseName "f.bin"]) ([1, 2, 3] : List Nat).length
            [1, 2, 3] (isLikelyText [1, 2, 3] (joinPath ["base", getBaseName "f.bin"]))] :=
  ⟨by decide, depth_cap_single_leaf stubZip stubGzip 0 "f.bin" [1, 2, 3] "base" 13 (by decide)⟩

/-- Claim C8: when regex mode is set, the query is non-blank, and the
`RegExp` constructor throws, the search answers with the structured error
string and a fully empty result set (no results, no matched files, empty
aggregation and timeline) instead of crashing — the model is a total
function, so no exception escapes. -/
theorem regex_error_empty_response (compile : RegexCompiler)
    (workspaces : Workspaces) (request : SearchRequest) (e : String)
    (hr : request.options.regex = true)
    (hq : jsTrim request.query ≠ "")
    (hc : compile (jsTrim request.query)
        (if request.options.caseSensitive then "" else "i") = Except.error e) :
    runSearch compile workspaces request =
      SearchResponse.mk request.requestId (jsTrim request.query) [] []
        createAggregation []
        ((mapGet workspaces request.workspaceId).getD emptyWorkspace).files.length
        (some ("正则表达式无效: " ++ e)) := by
  unfold runSearch
  rw [if_neg (by simp [hq])]
  simp only [hr, if_pos rfl, hc, Except.map, if_true]

/-- Witness for C8: a concrete request whose pattern the constructor
rejects. -/
theorem regex_error_empty_response_witness :
    (SearchRequest.mk "r1" "w" "(" (SearchOptions.mk true false false 2 100 noFilters)).options.regex = true ∧
    jsTrim "(" ≠ "" ∧
    runSearch failingCompiler []
        (SearchRequest.mk "r1" "w" "(" (SearchOptions.mk true false false 2 100 noFilters)) =
      SearchResponse.mk "r1" (jsTrim "(") [] [] createAggregation []
        ((mapGet ([] : Workspaces) "w").getD emptyWorkspace).files.length
        (some ("正则表达式无效: " ++ "SyntaxError: Invalid regular expression")) :=
  ⟨rfl, by decide,
    regex_error_empty_response failingCompiler []
      (SearchRequest.mk "r1" "w" "(" (SearchOptions.mk true false false 2 100 noFilters))
      "SyntaxError: Invalid regular expression" rfl (by decide) rfl⟩

/-- Helper: looking up the key just stored finds the stored value. -/
theorem mapGet_mapSet {α : Type} (m : List (String × α)) (k : String) (v : α) :
    mapGet (mapSet m k v) k = some v := by
  induction m with
  | nil => simp [mapGet, mapSet, List.find?]
  | cons p rest ih =>
    by_cases h : p.1 = k
    · simp [mapGet, mapSet, h, List.find?]
    · simpa [mapGet, mapSet, h, List.find?_cons_of_neg, h] using ih

/-- Claim C4, amended: the status response of `applyIndexDelta` reports
the number of entries stored in the workspace map after the delta as
`indexedFiles`, the number of *supplied* files (re-parsed or skipped) as
`changedFiles`, and echoes the request's `totalFiles`. -/
theorem applyDelta_status_counts (P : MetaParsers) (workspaces : Workspaces)
    (request : IndexDeltaRequest) :
    ∃ w', mapGet (applyIndexDelta P workspaces request).1 request.workspaceId = some w' ∧
      (applyIndexDelta P workspaces request).2 =
        IndexStatusResponse.mk request.workspaceId w'.files.length
          request.files.length request.totalFiles := by
  exact ⟨_, mapGet_mapSet _ _ _, rfl⟩

/-- Claim C4, counterexample: re-supplying a file whose stored signature
is unchanged re-parses nothing, yet the response still reports
`changedFiles = 1` — the count of supplied files, not of re-parsed
files. -/
theorem changed_count_counts_all_supplied :
    (applyIndexDelta stubParsers oneFileWorkspaces oneFileDelta).2.changedFiles = 1 ∧
    reparsedCountSpec oneFileDelta.files
      ((mapGet oneFileWorkspaces oneFileDelta.workspaceId).getD emptyWorkspace).signatures = 0 := by
  decide

set_option maxHeartbeats 1600000 in
/-- Helper for C3: the tar loop with a pending override equals claim-style
assembly over the raw record stream with a single last-writer-wins
pending slot. -/
theorem parseTarGo_eq_assemble (gas : List Nat) :
    ∀ rest pending,
      parseTarGo gas rest pending = tarAssembleLastWins pending (tarRecordsGo gas rest) := by
  induction gas with
  | nil => intro rest pending; rfl
  | cons g gas ih =>
    intro rest pending
    show parseTarGo (g :: gas) rest pending =
      tarAssembleLastWins pending (tarRecordsGo (g :: gas) rest)
    rw [parseTarGo, tarRecordsGo]
    by_cases hguard : (rest.drop 511).isEmpty
    · simp [hguard, tarAssembleLastWins]
    · rw [if_neg hguard, if_neg hguard]
      by_cases hempty : (rest.take 512).all (fun v => v = 0)
      · simp [hempty, tarAssembleLastWins]
      · rw [if_neg hempty, if_neg hempty]
        simp only [tarAssembleLastWins, ih]

/-- Claim C3, amended: the effective name of every entry the direct tar
decoder emits is the most recently set pending override — whether it came
from a type-'L' long-name record or from a path-carrying PAX record, the
later record wins — else `prefix + '/' + name` when the prefix field is
non-empty, else the name field (the resolved name is then normalized, and
entries whose resolved name is empty are dropped). -/
theorem tar_effective_name_last_override (bytes : List Nat) :
    parseTarEntries bytes = tarAssembleLastWins none (tarRecords bytes) :=
  parseTarGo_eq_assemble bytes bytes none

/-- Claim C3, counterexample: when a PAX `path=A` record and a later
type-'L' long-name record `B` both precede the same entry, the decoder
names the entry `B` (last override wins), while the claim's PAX-first
rule names it `A`. -/
theorem pax_then_longname_counterexample :
    parseTarEntries paxThenLongTar = [ArchiveEntry.mk "B" [] "file"] ∧
    tarAssemblePaxFirst none none (tarRecords paxThenLongTar) =
      [ArchiveEntry.mk "A" [] "file"] := by
  decide

/-- Helper: membership in a JS-set fold. -/
theorem mem_addToSet (acc : List String) (t x : String) :
    x ∈ addToSet acc t ↔ x ∈ acc ∨ x = t := by
  unfold addToSet
  by_cases h : t ∈ acc
  · simp only [if_pos h]
    constructor
    · exact Or.inl
    · rintro (hx | rfl)
      · exact hx
      · exact h
  · simp [if_neg h]

/-- Helper: membership in the fold of `addToSet` over a list. -/
theorem mem_foldl_addToSet (l : List String) :
    ∀ acc x, x ∈ l.foldl addToSet acc ↔ x ∈ acc ∨ x ∈ l := by
  induction l with
  | nil => intro acc x; simp
  | cons t rest ih =>
    intro acc x
    rw [List.foldl_cons, ih, mem_addToSet]
    constructor
    · rintro ((hx | rfl) | hx)
      · exact Or.inl hx
      · exact Or.inr (List.mem_cons_self _ _)
      · exact Or.inr (List.mem_cons_of_mem _ hx)
    · rintro (hx | hx)
      · exact Or.inl (Or.inl hx)
      · rcases List.mem_cons.mp hx with rfl | hx
        · exact Or.inl (Or.inr rfl)
        · exact Or.inr hx

/-- Helper: the occurrence count of an element of a duplicate-free list
is its membership indicator. -/
theorem countP_eq_mem_of_nodup (a : String) :
    ∀ l : List String, l.Nodup →
      l.countP (fun t => t = a) = if a ∈ l then 1 else 0 := by
  intro l
  induction l with
  | nil => intro _; simp
  | cons x rest ih =>
    intro hnd
    rw [List.nodup_cons] at hnd
    rw [List.countP_cons, ih hnd.2]
    by_cases hxa : x = a
    · subst hxa
      have hnr : x ∉ rest := hnd.1
      simp [hnr]
    · have hd : (decide (x = a)) = false := by
        simp only [decide_eq_false_iff_not]
        exact hxa
      rw [hd]
      by_cases ha : a ∈ rest
      · simp [ha, List.mem_cons]
      · have hne : ¬a ∈ x :: rest := by
          rw [List.mem_cons]
          rintro (rfl | h)
          · exact hxa rfl
          · exact ha h
        simp [ha, hne]

/-- Helper: the tag list of a line never repeats a tag. -/
theorem detectTags_nodup (line : String) : (detectTags line).Nodup := by
  simp only [detectTags]
  split_ifs <;> decide

/-- Helper: `detectTags` never produces duplicate occurrences of `retry`,
so the `retry` occurrence count of a line is its membership indicator. -/
theorem countP_retry_detectTags (line : String) :
    (detectTags line).countP (fun t => t = "retry") =
      if "retry" ∈ detectTags line then 1 else 0 :=
  countP_eq_mem_of_nodup "retry" (detectTags line) (detectTags_nodup line)

/-- Helper: the tag list stored for a line is `detectTags` of the line. -/
theorem parseLineMeta_tags (P : MetaParsers) (line : String) :
    (parseLineMeta P line).tags = detectTags line := rfl

/-- Helper: the anomaly tag computation of `buildIndexedFile`, expressed
over `detectTags` of the split lines. -/
theorem anomalyTags_spec (P : MetaParsers) (payload : IndexFilePayload) :
    (buildIndexedFile P payload).anomalyTags =
      (if 20 ≤ (((splitLines payload.text).map detectTags).flatten).countP
          (fun t => t = "retry") then
        addToSet ((((splitLines payload.text).map detectTags).flatten).foldl addToSet [])
          "retry_storm"
      else (((splitLines payload.text).map detectTags).flatten).foldl addToSet []) := by
  unfold buildIndexedFile
  simp only [List.map_map]
  rfl

/-- Helper: summing a boolean indicator over a list counts the filter. -/
theorem sum_indicator_eq_length_filter (p : String → Bool) :
    ∀ ls : List String,
      (ls.map (fun l => if p l then 1 else 0)).sum = (ls.filter p).length := by
  intro ls
  induction ls with
  | nil => rfl
  | cons l rest ih =>
    by_cases h : p l
    · simp [List.filter_cons, h, ih]
      omega
    · simp [List.filter_cons, h, ih]

/-- Helper: the total `retry` occurrence count across the lines equals
the number of lines whose tag set contains `retry`. -/
theorem retry_count_eq_lines (ls : List String) :
    ((ls.map detectTags).flatten).countP (fun t => t = "retry") =
      (ls.filter (fun l => "retry" ∈ detectTags l)).length := by
  rw [List.countP_flatten]
  rw [List.map_map]
  have h1 : (ls.map (fun l => (detectTags l).countP (fun t => t = "retry"))) =
      ls.map (fun l => if "retry" ∈ detectTags l then 1 else 0) := by
    apply List.map_congr_left
    intro l _
    exact countP_retry_detectTags l
  rw [show (List.countP (fun t => decide (t = "retry")) ∘ detectTags) =
      (fun l => (detectTags l).countP (fun t => t = "retry")) from rfl, h1]
  have h2 := sum_indicator_eq_length_filter (fun l => "retry" ∈ detectTags l) ls
  simp only [decide_eq_true_eq] at h2
  exact h2

/-- Helper: `detectTags` can never emit the synthesized tag. -/
theorem retry_storm_not_in_detectTags (line : String) :
    "retry_storm" ∉ detectTags line := by
  simp only [detectTags]
  split_ifs <;> decide

/-- Claim C9: the file-level anomaly tag set is exactly the union of the
per-line tag sets, plus the synthesized `retry_storm` tag exactly when at
least 20 lines carry the `retry` tag (so 19 such lines do not produce it,
since no line can contribute `retry_storm` itself). -/
theorem file_anomaly_tags (P : MetaParsers) (payload : IndexFilePayload) :
    (∀ t, t ∈ (buildIndexedFile P payload).anomalyTags ↔
      ((∃ line ∈ splitLines payload.text, t ∈ detectTags line) ∨
        (t = "retry_storm" ∧
          20 ≤ ((splitLines payload.text).filter
            (fun l => "retry" ∈ detectTags l)).length))) ∧
    (∀ line : String, "retry_storm" ∉ detectTags line) := by
  refine ⟨?_, retry_storm_not_in_detectTags⟩
  intro t
  rw [anomalyTags_spec, retry_count_eq_lines]
  have hbase : t ∈ ((((splitLines payload.text).map detectTags).flatten).foldl addToSet []) ↔
      (∃ line ∈ splitLines payload.text, t ∈ detectTags line) := by
    rw [mem_foldl_addToSet]
    simp [List.mem_flatten]
  by_cases hc : 20 ≤ ((splitLines payload.text).filter
      (fun l => "retry" ∈ detectTags l)).length
  · rw [if_pos hc, mem_addToSet, hbase]
    constructor
    · rintro (h | rfl)
      · exact Or.inl h
      · exact Or.inr ⟨rfl, hc⟩
    · rintro (h | ⟨rfl, _⟩)
      · exact Or.inl h
      · exact Or.inr rfl
  · rw [if_neg hc, hbase]
    constructor
    · exact Or.inl
    · rintro (h | ⟨rfl, h⟩)
      · exact h
      · exact absurd h hc

/-- Helper: the lexicographic comparison is irreflexive. -/
theorem jsStrLtList_irrefl : ∀ l, jsStrLtList l l = false := by
  intro l
  induction l with
  | nil => rfl
  | cons x xs ih => simp [jsStrLtList, ih]

/-- Helper: the lexicographic comparison is transitive. -/
theorem jsStrLtList_trans :
    ∀ a b c : List Char, jsStrLtList a b = true → jsStrLtList b c = true →
      jsStrLtList a c = true := by
  intro a
  induction a with
  | nil =>
    intro b c hab hbc
    cases b with
    | nil => simp [jsStrLtList] at hab
    | cons y ys =>
      cases c with
      | nil => simp [jsStrLtList] at hbc
      | cons z zs => simp [jsStrLtList]
  | cons x xs ih =>
    intro b c hab hbc
    cases b with
    | nil => simp [jsStrLtList] at hab
    | cons y ys =>
      cases c with
      | nil => simp [jsStrLtList] at hbc
      | cons z zs =>
        simp only [jsStrLtList] at hab hbc ⊢
        rcases lt_trichotomy x y with hxy | hxy | hxy
        · rcases lt_trichotomy y z with hyz | hyz | hyz
          · simp [lt_trans hxy hyz]
          · subst hyz; simp [hxy]
          · rw [if_neg (lt_asymm hyz), if_pos hyz] at hbc; simp at hbc
        · subst hxy
          rcases lt_trichotomy x z with hxz | hxz | hxz
          · simp [hxz]
          · subst hxz
            rw [if_neg (lt_irrefl x), if_neg (lt_irrefl x)] at hab hbc ⊢
            exact ih ys zs hab hbc
          · rw [if_neg (lt_asymm hxz), if_pos hxz] at hbc; simp at hbc
        · rw [if_neg (lt_asymm hxy), if_pos hxy] at hab; simp at hab

/-- Helper: two lists neither of which lexicographically precedes the
other are equal. -/
theorem jsStrLtList_connex :
    ∀ a b : List Char, jsStrLtList a b = false → jsStrLtList b a = false →
      a = b := by
  intro a
  induction a with
  | nil =>
    intro b hab _
    cases b with
    | nil => rfl
    | cons y ys => simp [jsStrLtList] at hab
  | cons x xs ih =>
    intro b hab hba
    cases b with
    | nil => simp [jsStrLtList] at hba
    | cons y ys =>
      simp only [jsStrLtList] at hab hba
      rcases lt_trichotomy x y with hxy | hxy | hxy
      · rw [if_pos hxy] at hab; simp at hab
      · subst hxy
        rw [if_neg (lt_irrefl x), if_neg (lt_irrefl x)] at hab hba
        rw [ih ys hab hba]
      · rw [if_pos hxy] at hba; simp at hba

/-- Helper: the lexicographic comparison is asymmetric. -/
theorem jsStrLtList_asymm (a b : List Char) (h : jsStrLtList a b = true) :
    jsStrLtList b a = false := by
  by_cases hba : jsStrLtList b a = true
  · have hc := jsStrLtList_trans a b a h hba
    rw [jsStrLtList_irrefl] at hc
    simp at hc
  · simpa using hba

/-- Helper: non-positivity of the string branch of the timeline
comparator. -/
theorem strBranch_nonpos (x y : String) :
    ((if jsStrLt x y then (-1 : Int) else if jsStrLt y x then 1 else 0) ≤ 0) ↔
      jsStrLt y x = false := by
  by_cases h1 : jsStrLt x y
  · rw [if_pos h1]
    constructor
    · intro _
      exact jsStrLtList_asymm x.data y.data h1
    · intro _
      omega
  · rw [if_neg h1]
    by_cases h2 : jsStrLt y x
    · rw [if_pos h2]
      constructor
      · intro hc; omega
      · intro hc; rw [h2] at hc; simp at hc
    · rw [if_neg h2]
      simpa using h2

/-- Helper: the timeline order is transitive. -/
theorem tlLeB_trans (a b c : TimelineEvent) :
    tlLeB a b = true → tlLeB b c = true → tlLeB a c = true := by
  unfold tlLeB tlCmp
  cases hat : a.timestamp <;> cases hbt : b.timestamp <;> cases hct : c.timestamp <;>
    simp only [decide_eq_true_eq]
  · rw [strBranch_nonpos, strBranch_nonpos, strBranch_nonpos]
    intro h1 h2
    by_cases hca : jsStrLt c.id a.id
    · by_cases hab : jsStrLt a.id b.id
      · have hcb := jsStrLtList_trans c.id.data a.id.data b.id.data hca hab
        rw [show jsStrLt c.id b.id = jsStrLtList c.id.data b.id.data from rfl, hcb] at h2
        simp at h2
      · have heq : a.id.data = b.id.data :=
          jsStrLtList_connex a.id.data b.id.data (by simpa using hab) h1
        have hca2 : jsStrLtList c.id.data a.id.data = true := hca
        rw [show jsStrLt c.id b.id = jsStrLtList c.id.data b.id.data from rfl,
          ← heq, hca2] at h2
        simp at h2
    · simpa using hca
  all_goals omega

/-- Helper: the timeline order is total. -/
theorem tlLeB_total (a b : TimelineEvent) :
    (tlLeB a b || tlLeB b a) = true := by
  unfold tlLeB tlCmp
  cases hat : a.timestamp <;> cases hbt : b.timestamp <;>
    simp only [Bool.or_eq_true, decide_eq_true_eq]
  · rw [strBranch_nonpos, strBranch_nonpos]
    by_cases hab : jsStrLt a.id b.id
    · exact Or.inl (jsStrLtList_asymm a.id.data b.id.data hab)
    · exact Or.inr (by simpa using hab)
  all_goals omega

/-- Claim C2, amended: on every search that reaches the scan (query or
filter present, regex compiled), the response timeline is the 500-entry
prefix of a permutation of the collected timeline events that is sorted
by the comparator order: ascending by timestamp where both are present,
timed entries before untimed ones, ties between two untimed entries
broken by lexical comparison of the event id — while two entries with
equal timestamps compare equal and stay in collection order. -/
theorem timeline_sorted_capped (compile : RegexCompiler)
    (workspaces : Workspaces) (request : SearchRequest)
    (regex : Option (String → Bool))
    (hok : (if request.options.regex then
        (compile (jsTrim request.query)
          (if request.options.caseSensitive then "" else "i")).map some
      else Except.ok none) = Except.ok regex)
    (hne : ¬(jsTrim request.query = "" ∧ ¬(hasAnyFilter request.options.filters = true))) :
    ∃ sortedAll,
      ((runSearchState regex
          ((mapGet workspaces request.workspaceId).getD emptyWorkspace)
          request).timeline).Perm sortedAll ∧
      sortedAll.Pairwise (fun a b => tlLeB a b = true) ∧
      (runSearch compile workspaces request).timeline = sortedAll.take 500 := by
  refine ⟨((runSearchState regex
      ((mapGet workspaces request.workspaceId).getD emptyWorkspace)
      request).timeline).mergeSort tlLeB,
    (List.mergeSort_perm _ _).symm,
    List.sorted_mergeSort tlLeB_trans (fun x y => tlLeB_total x y) _, ?_⟩
  unfold runSearch
  rw [if_neg hne, hok]

/-- Witness for the amended C2 at a concrete request (text mode, query
present, two collected events). -/
theorem timeline_sorted_capped_witness :
    (if twinTsRequest.options.regex then
        (unusedCompiler (jsTrim twinTsRequest.query)
          (if twinTsRequest.options.caseSensitive then "" else "i")).map some
      else Except.ok none) = Except.ok none ∧
    ¬(jsTrim twinTsRequest.query = "" ∧
        ¬(hasAnyFilter twinTsRequest.options.filters = true)) ∧
    ∃ sortedAll,
      ((runSearchState none
          ((mapGet twinTsWorkspaces twinTsRequest.workspaceId).getD emptyWorkspace)
          twinTsRequest).timeline).Perm sortedAll ∧
      sortedAll.Pairwise (fun a b => tlLeB a b = true) ∧
      (runSearch unusedCompiler twinTsWorkspaces twinTsRequest).timeline =
        sortedAll.take 500 :=
  ⟨rfl, by decide,
    timeline_sorted_capped unusedCompiler twinTsWorkspaces twinTsRequest none rfl
      (by decide)⟩

unseal List.merge List.mergeSort in
/-- Claim C2, counterexample: two qualifying lines in files keyed `b`
then `a` (insertion order) carry the same timestamp; the sorted timeline
keeps the collection order `tl:b:0, tl:a:0`, although `tl:a:0` lexically
precedes `tl:b:0`, so the claimed lexical tie-break on equal timestamps
does not hold. -/
theorem equal_timestamps_keep_collection_order :
    claimTimelineSortedB
        ((runSearch unusedCompiler twinTsWorkspaces twinTsRequest).timeline) = false ∧
    (runSearch unusedCompiler twinTsWorkspaces twinTsRequest).timeline.map
        (fun e => (e.id, e.timestamp)) =
      [("tl:b:0", some 5), ("tl:a:0", some 5)] := by
  decide

/-- Helper: a split is never the empty list of pieces. -/
theorem splitChar_ne_nil (c : Char) : ∀ l, splitChar c l ≠ [] := by
  intro l
  induction l with
  | nil => simp [splitChar]
  | cons x xs ih =>
    unfold splitChar
    by_cases hx : x = c
    · simp [hx]
    · rw [if_neg hx]
      cases h : splitChar c xs with
      | nil => simp
      | cons p ps => simp

/-- Helper: no piece of a split contains the separator. -/
theorem splitChar_not_mem (c : Char) :
    ∀ l, ∀ p ∈ splitChar c l, c ∉ p := by
  intro l
  induction l with
  | nil =>
    intro p hp
    simp [splitChar] at hp
    simp [hp]
  | cons x xs ih =>
    intro p hp
    unfold splitChar at hp
    by_cases hx : x = c
    · rw [if_pos hx] at hp
      rcases List.mem_cons.mp hp with rfl | hp
      · simp
      · exact ih p hp
    · rw [if_neg hx] at hp
      cases h : splitChar c xs with
      | nil => exact absurd h (splitChar_ne_nil c xs)
      | cons p0 ps =>
        rw [h] at hp
        rcases List.mem_cons.mp hp with rfl | hp
        · intro hc
          rcases List.mem_cons.mp hc with rfl | hc
          · exact hx rfl
          · exact ih p0 (h ▸ List.mem_cons_self _ _) hc
        · exact ih p (h ▸ List.mem_cons_of_mem _ hp)

/-- Helper: splitting distributes over a separator occurrence. -/
theorem splitChar_append (c : Char) :
    ∀ xs ys, splitChar c (xs ++ c :: ys) = splitChar c xs ++ splitChar c ys := by
  intro xs ys
  induction xs with
  | nil =>
    rw [List.nil_append]
    rw [show splitChar c (c :: ys) = [] :: splitChar c ys from by
      simp only [splitChar]
      rw [if_pos trivial]]
    rfl
  | cons x xs ih =>
    by_cases hx : x = c
    · subst hx
      rw [List.cons_append]
      rw [show splitChar x (x :: (xs ++ x :: ys)) = [] :: splitChar x (xs ++ x :: ys) from by
        simp only [splitChar]
        rw [if_pos trivial]]
      rw [show splitChar x (x :: xs) = [] :: splitChar x xs from by
        simp only [splitChar]
        rw [if_pos trivial]]
      rw [ih]
      rfl
    · cases h : splitChar c xs with
      | nil => exact absurd h (splitChar_ne_nil c xs)
      | cons p ps =>
        rw [List.cons_append]
        rw [show splitChar c (x :: (xs ++ c :: ys)) = (x :: p) :: (ps ++ splitChar c ys) from by
          simp only [splitChar]
          rw [if_neg hx, ih, h, List.cons_append]]
        rw [show splitChar c (x :: xs) = (x :: p) :: ps from by
          simp only [splitChar]
          rw [if_neg hx, h]]
        rfl

/-- Helper: splitting a separator-free list yields that list alone. -/
theorem splitChar_no_sep (c : Char) :
    ∀ l, c ∉ l → splitChar c l = [l] := by
  intro l
  induction l with
  | nil => intro _; rfl
  | cons x xs ih =>
    intro hmem
    have hx : x ≠ c := fun h => hmem (h ▸ List.mem_cons_self _ _)
    have hxs : c ∉ xs := fun h => hmem (List.mem_cons_of_mem _ h)
    unfold splitChar
    rw [if_neg hx, ih hxs]

/-- Helper: splitting inverts joining for non-empty lists of
separator-free pieces. -/
theorem splitChar_joinChar (c : Char) :
    ∀ ps, ps ≠ [] → (∀ p ∈ ps, c ∉ p) → splitChar c (joinChar c ps) = ps := by
  intro ps
  induction ps with
  | nil => intro h; exact absurd rfl h
  | cons p ps ih =>
    intro _ hmem
    cases ps with
    | nil =>
      show splitChar c (joinChar c [p]) = [p]
      exact splitChar_no_sep c p (hmem p (List.mem_cons_self _ _))
    | cons q qs =>
      show splitChar c (p ++ c :: joinChar c (q :: qs)) = p :: q :: qs
      rw [splitChar_append, splitChar_no_sep c p (hmem p (List.mem_cons_self _ _)),
        ih (by simp) (fun r hr => hmem r (List.mem_cons_of_mem _ hr))]
      rfl

/-- Helper: collapsing keeps the head character. -/
theorem head_split_collapseGo :
    ∀ l, (splitChar '/' (collapseGo false l)).head? = (splitChar '/' l).head? := by
  intro l
  induction l with
  | nil => rfl
  | cons x xs ih =>
    by_cases hx : x = '/'
    · subst hx
      rw [show collapseGo false ('/' :: xs) = '/' :: collapseGo true xs from by
        simp only [collapseGo]
        rw [if_pos trivial, if_neg (by simp)]]
      rw [show splitChar '/' ('/' :: collapseGo true xs) = [] :: splitChar '/' (collapseGo true xs) from by
        simp only [splitChar]
        rw [if_pos trivial]]
      rw [show splitChar '/' ('/' :: xs) = [] :: splitChar '/' xs from by
        simp only [splitChar]
        rw [if_pos trivial]]
      rfl
    · rw [show collapseGo false (x :: xs) = x :: collapseGo false xs from by
        simp only [collapseGo]
        rw [if_neg hx]]
      cases hX : splitChar '/' (collapseGo false xs) with
      | nil => exact absurd hX (splitChar_ne_nil _ _)
      | cons pX psX =>
        cases h0 : splitChar '/' xs with
        | nil => exact absurd h0 (splitChar_ne_nil _ _)
        | cons p0 ps0 =>
          have hpp : pX = p0 := by
            have h4 := ih
            rw [hX, h0] at h4
            simpa using h4
          rw [show splitChar '/' (x :: collapseGo false xs) = (x :: pX) :: psX from by
            simp only [splitChar]
            rw [if_neg hx, hX]]
          rw [show splitChar '/' (x :: xs) = (x :: p0) :: ps0 from by
            simp only [splitChar]
            rw [if_neg hx, h0]]
          rw [hpp]
          rfl

/-- Helper: collapsing slash runs does not change the non-empty split
pieces. -/
theorem filter_split_collapseGo :
    ∀ (l : List Char) (b : Bool),
      (splitChar '/' (collapseGo b l)).filter (fun p => p ≠ []) =
        (splitChar '/' l).filter (fun p => p ≠ []) := by
  intro l
  induction l with
  | nil => intro b; cases b <;> rfl
  | cons x xs ih =>
    intro b
    by_cases hx : x = '/'
    · subst hx
      have hsx : splitChar '/' ('/' :: xs) = [] :: splitChar '/' xs := by
        simp only [splitChar]
        rw [if_pos trivial]
      have hdropL : ∀ L : List (List Char),
          ([] :: L).filter (fun p => p ≠ []) = L.filter (fun p => p ≠ []) := by
        intro L
        rw [List.filter_cons, if_neg (by decide)]
      cases b with
      | true =>
        rw [show collapseGo true ('/' :: xs) = collapseGo true xs from by
          simp only [collapseGo]
          rw [if_pos trivial, if_pos trivial]]
        rw [ih true, hsx, hdropL]
      | false =>
        rw [show collapseGo false ('/' :: xs) = '/' :: collapseGo true xs from by
          simp only [collapseGo]
          rw [if_pos trivial, if_neg (by simp)]]
        rw [show splitChar '/' ('/' :: collapseGo true xs) =
            [] :: splitChar '/' (collapseGo true xs) from by
          simp only [splitChar]
          rw [if_pos trivial]]
        rw [hsx, hdropL, hdropL]
        exact ih true
    · rw [show collapseGo b (x :: xs) = x :: collapseGo false xs from by
        cases b <;> (simp only [collapseGo]; rw [if_neg hx])]
      cases hX : splitChar '/' (collapseGo false xs) with
      | nil => exact absurd hX (splitChar_ne_nil _ _)
      | cons pX psX =>
        cases h0 : splitChar '/' xs with
        | nil => exact absurd h0 (splitChar_ne_nil _ _)
        | cons p0 ps0 =>
          have hpp : pX = p0 := by
            have h4 := head_split_collapseGo xs
            rw [hX, h0] at h4
            simpa using h4
          subst hpp
          have hih := ih false
          rw [hX, h0] at hih
          rw [show splitChar '/' (x :: collapseGo false xs) = (x :: pX) :: psX from by
            simp only [splitChar]
            rw [if_neg hx, hX]]
          rw [show splitChar '/' (x :: xs) = (x :: pX) :: ps0 from by
            simp only [splitChar]
            rw [if_neg hx, h0]]
          rw [List.filter_cons, List.filter_cons,
            if_pos (show decide ((x :: pX) ≠ []) = true by simp),
            if_pos (show decide ((x :: pX) ≠ []) = true by simp)]
          by_cases hp : pX = []
          · subst hp
            rw [List.filter_cons, List.filter_cons, if_neg (by decide),
              if_neg (by decide)] at hih
            rw [hih]
          · rw [List.filter_cons, List.filter_cons,
              if_pos (show decide (pX ≠ []) = true by simpa using hp),
              if_pos (show decide (pX ≠ []) = true by simpa using hp)] at hih
            injection hih with h1 h2
            rw [h2]

/-- Helper: `normalizeParts` with the slash-run collapse rewritten away
(the collapse only merges empty pieces that the filter drops anyway). -/
theorem normalizeParts_nocollapse (input : String) :
    normalizeParts input =
      ((splitChar '/' (replaceBackslash input.data)).filter
        (fun p => p ≠ [])).foldl normalizeStep [] := by
  simp only [normalizeParts, collapseSlashes]
  rw [filter_split_collapseGo]

/-- Helper: backslashes are gone after the replacement. -/
theorem backslash_not_mem_replace (l : List Char) :
    '\\' ∉ replaceBackslash l := by
  intro h
  rcases List.mem_map.mp h with ⟨y, _, hy⟩
  by_cases hyb : y = '\\'
  · rw [if_pos hyb] at hy
    exact absurd hy (by decide)
  · rw [if_neg hyb] at hy
    exact hyb hy

/-- Helper: characters of split pieces come from the split list. -/
theorem splitChar_mem_subset (c : Char) :
    ∀ l, ∀ p ∈ splitChar c l, ∀ x ∈ p, x ∈ l := by
  intro l
  induction l with
  | nil =>
    intro p hp x hx
    simp [splitChar] at hp
    subst hp
    simp at hx
  | cons y ys ih =>
    intro p hp x hx
    unfold splitChar at hp
    by_cases hy : y = c
    · rw [if_pos hy] at hp
      rcases List.mem_cons.mp hp with rfl | hp
      · simp at hx
      · exact List.mem_cons_of_mem _ (ih p hp x hx)
    · rw [if_neg hy] at hp
      cases h0 : splitChar c ys with
      | nil => exact absurd h0 (splitChar_ne_nil c ys)
      | cons p0 ps0 =>
        rw [h0] at hp
        rcases List.mem_cons.mp hp with rfl | hp
        · rcases List.mem_cons.mp hx with rfl | hx
          · exact List.mem_cons_self _ _
          · exact List.mem_cons_of_mem _
              (ih p0 (h0 ▸ List.mem_cons_self _ _) x hx)
        · exact List.mem_cons_of_mem _
            (ih p (h0 ▸ List.mem_cons_of_mem _ hp) x hx)

/-- Helper: the accumulator loop preserves and creates only clean
segments when all parts are separator-free. -/
theorem foldl_normalizeStep_clean :
    ∀ (parts : List (List Char)),
      (∀ p ∈ parts, '/' ∉ p ∧ '\\' ∉ p) →
      ∀ acc, (∀ x ∈ acc, cleanSeg x) →
      ∀ x ∈ parts.foldl normalizeStep acc, cleanSeg x := by
  intro parts
  induction parts with
  | nil => intro _ acc hacc x hx; exact hacc x hx
  | cons p ps ih =>
    intro h acc hacc x hx
    rw [List.foldl_cons] at hx
    refine ih (fun q hq => h q (List.mem_cons_of_mem _ hq))
      (normalizeStep acc p) ?_ x hx
    intro y hy
    unfold normalizeStep at hy
    split_ifs at hy with h1 h2
    · exact hacc y hy
    · exact hacc y (List.dropLast_subset _ hy)
    · rcases List.mem_append.mp hy with hy | hy
      · exact hacc y hy
      · have hyp : y = p := by simpa using hy
        subst hyp
        have hp := h y (List.mem_cons_self _ _)
        exact ⟨fun hne => h1 (Or.inr hne), fun hne => h1 (Or.inl hne), h2,
          hp.1, hp.2⟩

/-- Helper: every segment `normalizePath` keeps is clean. -/
theorem mem_normalizeParts_clean (input : String) :
    ∀ x ∈ normalizeParts input, cleanSeg x := by
  rw [normalizeParts_nocollapse]
  refine foldl_normalizeStep_clean _ ?_ [] (by simp)
  intro p hp
  have hp1 := (List.mem_filter.mp hp).1
  refine ⟨splitChar_not_mem '/' _ p hp1, fun hb => ?_⟩
  exact backslash_not_mem_replace input.data (splitChar_mem_subset '/' _ p hp1 '\\' hb)

/-- Helper: clean segments are pushed verbatim by the accumulator loop. -/
theorem foldl_normalizeStep_push :
    ∀ (segs : List (List Char)), (∀ s ∈ segs, cleanSeg s) →
      ∀ acc, segs.foldl normalizeStep acc = acc ++ segs := by
  intro segs
  induction segs with
  | nil => intro _ acc; simp
  | cons s ss ih =>
    intro h acc
    rw [List.foldl_cons]
    have hs := h s (List.mem_cons_self _ _)
    have hstep : normalizeStep acc s = acc ++ [s] := by
      unfold normalizeStep
      rw [if_neg (by
          rintro (h1 | h1)
          · exact hs.2.1 h1
          · exact hs.1 h1),
        if_neg hs.2.2.1]
    rw [hstep, ih (fun q hq => h q (List.mem_cons_of_mem _ hq))]
    simp

/-- Helper: joining non-empty segments yields a non-empty list. -/
theorem joinChar_ne_nil (c : Char) :
    ∀ segs, segs ≠ [] → (∀ s ∈ segs, s ≠ []) → joinChar c segs ≠ [] := by
  intro segs h0 h1
  cases segs with
  | nil => exact absurd rfl h0
  | cons s ss =>
    cases ss with
    | nil => exact h1 s (List.mem_cons_self _ _)
    | cons t ts =>
      show s ++ c :: joinChar c (t :: ts) ≠ []
      simp

/-- Helper: a normal-form string is non-empty. -/
theorem normalForm_ne_empty {t : String} (h : normalForm t) : t ≠ "" := by
  rcases h with ⟨segs, h0, h1, h2⟩
  intro hteq
  subst hteq
  exact joinChar_ne_nil '/' segs h0 (fun s hs => (h1 s hs).1) h2.symm

/-- Helper: the normalized path is empty exactly when no segment
survives. -/
theorem normalizePath_empty_iff (s : String) :
    normalizePath s = "" ↔ normalizeParts s = [] := by
  constructor
  · intro h
    cases hp : normalizeParts s with
    | nil => rfl
    | cons p ps =>
      have hclean := mem_normalizeParts_clean s
      rw [hp] at hclean
      have hjc : joinChar '/' (p :: ps) ≠ [] :=
        joinChar_ne_nil '/' (p :: ps) (by simp)
          (fun q hq => (hclean q hq).1)
      have : (normalizePath s).data = joinChar '/' (p :: ps) := by
        show (String.mk (joinChar '/' (normalizeParts s))).data = _
        rw [hp]
      rw [h] at this
      exact absurd this.symm hjc
  · intro h
    show String.mk (joinChar '/' (normalizeParts s)) = ""
    rw [h]
    rfl

/-- Helper: a non-trivial normalization result is in normal form. -/
theorem normalizePath_normalForm (s : String) (h : normalizeParts s ≠ []) :
    normalForm (normalizePath s) :=
  ⟨normalizeParts s, h, mem_normalizeParts_clean s, rfl⟩

/-- Helper: a normal-form string has only clean path segments. -/
theorem normalForm_goodPath {p : String} (h : normalForm p) : goodPathSegs p := by
  rcases h with ⟨segs, h0, h1, h2⟩
  intro s hs
  rw [h2, splitChar_joinChar '/' segs h0 (fun q hq => (h1 q hq).2.2.2.1)] at hs
  exact ⟨(h1 s hs).1, (h1 s hs).2.1, (h1 s hs).2.2.1⟩

/-- Helper: every character of a join is the separator or a segment
character. -/
theorem mem_joinChar (c : Char) :
    ∀ segs x, x ∈ joinChar c segs → x = c ∨ ∃ s ∈ segs, x ∈ s := by
  intro segs
  induction segs with
  | nil => intro x hx; simp [joinChar] at hx
  | cons p ps ih =>
    intro x hx
    cases ps with
    | nil =>
      exact Or.inr ⟨p, List.mem_cons_self _ _, hx⟩
    | cons q qs =>
      rcases List.mem_append.mp hx with hx | hx
      · exact Or.inr ⟨p, List.mem_cons_self _ _, hx⟩
      · rcases List.mem_cons.mp hx with rfl | hx
        · exact Or.inl rfl
        · rcases ih x hx with h | ⟨s, hs, hxs⟩
          · exact Or.inl h
          · exact Or.inr ⟨s, List.mem_cons_of_mem _ hs, hxs⟩

/-- Helper: normalizing a normal-form string recovers its segments. -/
theorem normalForm_parts {t : String} (segs : List (List Char))
    (h0 : segs ≠ []) (h1 : ∀ s ∈ segs, cleanSeg s)
    (h2 : t.data = joinChar '/' segs) : normalizeParts t = segs := by
  rw [normalizeParts_nocollapse, h2]
  have hrep : replaceBackslash (joinChar '/' segs) = joinChar '/' segs := by
    unfold replaceBackslash
    rw [List.map_congr_left (g := id), List.map_id]
    intro x hx
    have hxb : x ≠ '\\' := by
      rcases mem_joinChar '/' segs x hx with rfl | ⟨s, hs, hxs⟩
      · decide
      · exact fun hb => (h1 s hs).2.2.2.2 (hb ▸ hxs)
    simp [if_neg hxb]
  rw [hrep, splitChar_joinChar '/' segs h0 (fun q hq => (h1 q hq).2.2.2.1)]
  rw [List.filter_eq_self.mpr (fun s hs => by simpa using (h1 s hs).1)]
  rw [foldl_normalizeStep_push segs h1 []]
  rfl

/-- Helper: backslash replacement fixes a normal-form string. -/
theorem normalForm_replace_id {t : String} (h : normalForm t) :
    replaceBackslash t.data = t.data := by
  rcases h with ⟨segs, _, h1, h2⟩
  unfold replaceBackslash
  rw [List.map_congr_left (g := id), List.map_id]
  intro x hx
  have hxb : x ≠ '\\' := by
    rw [h2] at hx
    rcases mem_joinChar '/' segs x hx with rfl | ⟨s, hs, hxs⟩
    · decide
    · exact fun hb => (h1 s hs).2.2.2.2 (hb ▸ hxs)
  simp [if_neg hxb]

/-- Helper: splitting a normal-form string recovers its segments. -/
theorem normalForm_split {t : String} (segs : List (List Char))
    (h0 : segs ≠ []) (h1 : ∀ s ∈ segs, cleanSeg s)
    (h2 : t.data = joinChar '/' segs) :
    splitChar '/' t.data = segs := by
  rw [h2]
  exact splitChar_joinChar '/' segs h0 (fun q hq => (h1 q hq).2.2.2.1)

/-- Helper: joining a base onto a normal-form tail normalizes to a
non-trivial (hence normal-form) path. -/
theorem joinPath_normalForm (base t : String) (h : normalForm t) :
    normalForm (joinPath [base, t]) := by
  obtain ⟨segs, h0, h1, h2⟩ := h
  apply normalizePath_normalForm
  have hT : t ≠ "" := normalForm_ne_empty ⟨segs, h0, h1, h2⟩
  by_cases hb : base = ""
  · subst hb
    have hf : (["", t].filter (fun p => p ≠ "")) = [t] := by simp [hT]
    rw [hf]
    show normalizeParts (String.mk (joinChar '/' [t.data])) ≠ []
    have hmk : String.mk (joinChar '/' [t.data]) = t := rfl
    rw [hmk, normalForm_parts segs h0 h1 h2]
    exact h0
  · have hf : ([base, t].filter (fun p => p ≠ "")) = [base, t] := by
      simp [hb, hT]
    rw [hf]
    show normalizeParts (String.mk (base.data ++ '/' :: t.data)) ≠ []
    rw [normalizeParts_nocollapse]
    show ((splitChar '/' (replaceBackslash (base.data ++ '/' :: t.data))).filter
      (fun p => p ≠ [])).foldl normalizeStep [] ≠ []
    have hdist : replaceBackslash (base.data ++ '/' :: t.data) =
        replaceBackslash base.data ++ '/' :: replaceBackslash t.data := by
      unfold replaceBackslash
      rw [List.map_append]
      rfl
    have hfs : (segs.filter (fun p => p ≠ [])) = segs :=
      List.filter_eq_self.mpr (fun s hs => by simpa using (h1 s hs).1)
    rw [hdist, normalForm_replace_id ⟨segs, h0, h1, h2⟩, splitChar_append,
      List.filter_append, normalForm_split segs h0 h1 h2, hfs,
      List.foldl_append, foldl_normalizeStep_push segs h1]
    exact List.append_ne_nil_of_right_ne_nil _ h0

/-- Helper: the base name of a path with surviving segments is its last
clean segment, itself in normal form. -/
theorem getBaseName_normalForm (path : String)
    (h : normalizeParts path ≠ []) : normalForm (getBaseName path) := by
  have hsp : splitPath path = (normalizeParts path).map String.mk := by
    unfold splitPath
    rw [if_neg (fun he => h ((normalizePath_empty_iff path).mp he))]
    show (splitChar '/' (joinChar '/' (normalizeParts path))).map String.mk = _
    rw [splitChar_joinChar '/' _ h
      (fun q hq => (mem_normalizeParts_clean path q hq).2.2.2.1)]
  unfold getBaseName
  rw [hsp, List.getLast?_map, List.getLast?_eq_getLast _ h]
  have hgmem := List.getLast_mem h
  have hclean := mem_normalizeParts_clean path _ hgmem
  exact ⟨[(normalizeParts path).getLast h], by simp,
    by
      intro s hs
      rw [List.mem_singleton] at hs
      subst hs
      exact hclean,
    rfl⟩

/-- Helper: a normal-form string has surviving segments. -/
theorem normalForm_parts_ne {t : String} (h : normalForm t) :
    normalizeParts t ≠ [] := by
  obtain ⟨segs, h0, h1, h2⟩ := h
  rw [normalForm_parts segs h0 h1 h2]
  exact h0

/-- Helper: every file the entry loop emits has a clean path, given that
every nested decode the loop consults does too. -/
theorem walkEntries_goodPaths
    (recurse : String → List Nat → String → Except String (List ExtractedFile))
    (hrec : ∀ n b base files, normalizeParts n ≠ [] →
      recurse n b base = Except.ok files → ∀ f ∈ files, goodPathSegs f.path) :
    ∀ entries basePath, ∀ f ∈ walkEntries recurse entries basePath,
      goodPathSegs f.path := by
  intro entries
  induction entries with
  | nil =>
    intro basePath f hf
    simp [walkEntries] at hf
  | cons entry rest ih =>
    intro basePath f hf
    rw [walkEntries] at hf
    by_cases hskip : (normalizePath entry.path = "" ∨ entry.kind = "dir" ∨
        isIgnorableMetadataPath (normalizePath entry.path) = true)
    · rw [if_pos hskip] at hf
      exact ih basePath f hf
    · rw [if_neg hskip] at hf
      simp only [] at hf
      have hne : normalizePath entry.path ≠ "" := fun he => hskip (Or.inl he)
      have hNFentry : normalForm (normalizePath entry.path) :=
        normalizePath_normalForm entry.path
          (fun hp => hne ((normalizePath_empty_iff entry.path).mpr hp))
      have hmerged : goodPathSegs (joinPath [basePath, normalizePath entry.path]) :=
        normalForm_goodPath (joinPath_normalForm basePath _ hNFentry)
      have hename : normalizeParts (getBaseName (normalizePath entry.path)) ≠ [] :=
        normalForm_parts_ne
          (getBaseName_normalForm _ (normalForm_parts_ne hNFentry))
      by_cases harch : isArchiveFile (getBaseName (normalizePath entry.path)) = true
      · rw [if_pos harch] at hf
        cases hrecres : recurse (getBaseName (normalizePath entry.path)) entry.bytes
            (stripArchiveExtension (joinPath [basePath, normalizePath entry.path])) with
        | ok files =>
          rw [hrecres] at hf
          rcases List.mem_append.mp hf with hf | hf
          · exact hrec _ _ _ files hename hrecres f hf
          · exact ih basePath f hf
        | error e =>
          rw [hrecres] at hf
          rcases List.mem_cons.mp hf with rfl | hf
          · exact hmerged
          · exact ih basePath f hf
      · rw [if_neg harch] at hf
        rcases List.mem_cons.mp hf with rfl | hf
        · exact hmerged
        · exact ih basePath f hf

/-- Helper: every file the walker emits has a clean path, given the
invariant that a call below the depth cap or with a surviving file name
is made. -/
theorem walkArchive_goodPaths (unzip : ZipCodec) (gunzip : GzipCodec) :
    ∀ fuel fileName bytes basePath depth out,
      (depth ≤ MAX_DEPTH ∨ normalizeParts fileName ≠ []) →
      walkArchive unzip gunzip fuel fileName bytes basePath depth = Except.ok out →
      ∀ f ∈ out, goodPathSegs f.path := by
  intro fuel
  induction fuel with
  | zero =>
    intro fileName bytes basePath depth out _ hok
    exact absurd hok (by simp [walkArchive])
  | succ fuel ih =>
    intro fileName bytes basePath depth out hinv hok
    rw [walkArchive] at hok
    by_cases hd : MAX_DEPTH < depth
    · rw [if_pos hd] at hok
      have hN : normalizeParts fileName ≠ [] := by
        rcases hinv with hinv | hinv
        · omega
        · exact hinv
      injection hok with hok
      subst hok
      intro f hf
      rcases List.mem_singleton.mp hf with rfl
      exact normalForm_goodPath
        (joinPath_normalForm basePath _ (getBaseName_normalForm fileName hN))
    · rw [if_neg hd] at hok
      cases hpe : parseArchiveEntries unzip gunzip fileName bytes with
      | error e =>
        rw [hpe] at hok
        exact absurd hok (by simp)
      | ok entries =>
        rw [hpe] at hok
        injection hok with hok
        subst hok
        exact walkEntries_goodPaths _
          (fun n b base files hn hok2 =>
            ih n b base (depth + 1) files (Or.inr hn) hok2)
          entries basePath

/-- Claim C7: every file produced by the recursive extractor has a
virtual path with no empty, `.` or `..` segments, whatever the entry
names inside the containers are (backslashes, leading slashes and `..`
included) and whatever the delegated codecs return. -/
theorem extractor_paths_no_dot_segments (unzip : ZipCodec) (gunzip : GzipCodec)
    (fileName : String) (bytes : List Nat) (out : List ExtractedFile)
    (h : extractArchiveRecursively unzip gunzip fileName bytes = Except.ok out) :
    ∀ f ∈ out, goodPathSegs f.path :=
  walkArchive_goodPaths unzip gunzip (MAX_DEPTH + 2) fileName bytes "" 0 out
    (Or.inl (Nat.zero_le _)) h

/-- Witness for C7: a zip listing with resource forks, directories, a
backslash-and-dot-dot traversal name and a `..` component extracts to
clean paths only. -/
theorem extractor_paths_no_dot_segments_witness :
    extractArchiveRecursively fixedZip stubGzip "t.zip" [] =
      Except.ok
        [ExtractedFile.mk "evil/deep.log" 2 [104, 105] true,
         ExtractedFile.mk "b.log" 2 [80, 75] true] ∧
    ∀ f ∈ [ExtractedFile.mk "evil/deep.log" 2 [104, 105] true,
         ExtractedFile.mk "b.log" 2 [80, 75] true], goodPathSegs f.path :=
  ⟨by rfl,
    extractor_paths_no_dot_segments fixedZip stubGzip "t.zip" [] _ (by rfl)⟩

/-- Helper: pushing a line appends exactly one result. -/
theorem pushLine_results (C : SearchCtx) (entry : IndexedFile) (i : Nat)
    (st : SearchState) :
    (pushLine C entry i st).results = st.results ++ [mkResult C entry i] := rfl

/-- Helper: the inner line loop collects, in order, the qualifying line
indices up to the remaining result budget. -/
theorem searchLines_results (C : SearchCtx) (entry : IndexedFile) :
    ∀ idxs (st : SearchState) ftags, st.results.length < C.maxResults →
      ((searchLines C entry idxs st ftags).1).results =
        st.results ++
          ((idxs.filter (lineQualifies C entry)).take
            (C.maxResults - st.results.length)).map (mkResult C entry) := by
  intro idxs
  induction idxs with
  | nil =>
    intro st ftags h
    simp [searchLines]
  | cons i rest ih =>
    intro st ftags h
    simp only [searchLines]
    by_cases hq : lineQualifies C entry i = true
    · rw [if_pos hq]
      have hlen : (pushLine C entry i st).results.length = st.results.length + 1 := by
        rw [pushLine_results]
        simp
      by_cases hmax : C.maxResults ≤ (pushLine C entry i st).results.length
      · rw [if_pos hmax]
        have hb : C.maxResults - st.results.length = 1 := by omega
        rw [List.filter_cons, if_pos hq, hb, List.take_succ_cons, List.take_zero]
        rw [pushLine_results]
        rfl
      · rw [if_neg hmax]
        rw [ih (pushLine C entry i st) _ (by omega)]
        rw [List.filter_cons, if_pos hq]
        have hb : C.maxResults - st.results.length =
            (C.maxResults - (pushLine C entry i st).results.length) + 1 := by
          omega
        rw [hb, List.take_succ_cons, pushLine_results, List.map_cons,
          List.append_assoc]
        rfl
    · rw [if_neg hq, ih st ftags h, List.filter_cons, if_neg hq]

/-- Helper: the per-file body only adds tag counts on top of the line
loop; the collected results are those of the line loop. -/
theorem searchFile_results (C : SearchCtx) (entry : IndexedFile)
    (st : SearchState) :
    (searchFile C entry st).results =
      ((searchLines C entry (List.range entry.lines.length) st []).1).results := rfl

/-- Helper: the outer file loop collects, in file order then line order,
the per-file qualifying results (pre-check included) up to the result
budget. -/
theorem searchFiles_results (C : SearchCtx) (hq : C.query ≠ "") :
    ∀ files (st : SearchState), st.results.length < C.maxResults →
      (searchFiles C files st).results =
        st.results ++
          ((files.map (fileResultsSpec C)).flatten).take
            (C.maxResults - st.results.length) := by
  intro files
  induction files with
  | nil =>
    intro st h
    simp [searchFiles]
  | cons e rest ih =>
    intro st h
    simp only [searchFiles]
    by_cases hpre : filePreCheck C e = true
    · rw [if_neg (by simp [hpre])]
      have hres : (searchFile C e st).results =
          st.results ++
            (fileResultsSpec C e).take (C.maxResults - st.results.length) := by
        rw [searchFile_results, searchLines_results C e _ st [] h]
        unfold fileResultsSpec qualifyingIdxs
        rw [if_pos hpre, List.map_take]
      have hlen : (searchFile C e st).results.length =
          st.results.length +
            min (C.maxResults - st.results.length) (fileResultsSpec C e).length := by
        rw [hres]
        simp [List.length_append, List.length_take]
      by_cases hmax : C.maxResults ≤ (searchFile C e st).results.length
      · rw [if_pos hmax]
        rw [hres, List.map_cons, List.flatten_cons, List.take_append_eq_append_take]
        have hz : C.maxResults - st.results.length - (fileResultsSpec C e).length = 0 := by
          omega
        rw [hz, List.take_zero, List.append_nil]
      · rw [if_neg hmax]
        rw [ih _ (by omega), hres]
        have hlt : (fileResultsSpec C e).length < C.maxResults - st.results.length := by
          omega
        rw [List.map_cons, List.flatten_cons, List.take_append_eq_append_take,
          List.take_of_length_le (le_of_lt hlt)]
        have hb2 : C.maxResults - (st.results ++ fileResultsSpec C e).length =
            C.maxResults - st.results.length - (fileResultsSpec C e).length := by
          rw [List.length_append]
          omega
        rw [hb2, List.append_assoc]
    · rw [if_pos ⟨by simpa using hpre, hq⟩]
      rw [ih st h]
      have hz : fileResultsSpec C e = [] := by
        unfold fileResultsSpec
        rw [if_neg (by simpa using hpre)]
      rw [List.map_cons, List.flatten_cons, hz, List.nil_append]

/-- Helper: line splitting never yields an empty list of lines. -/
theorem splitLinesChars_ne_nil : ∀ l, splitLinesChars l ≠ [] := by
  intro l
  induction l with
  | nil => simp [splitLinesChars]
  | cons x xs ih =>
    unfold splitLinesChars
    by_cases hx : x = '\n'
    · simp [hx]
    · rw [if_neg hx]
      by_cases hr : x = '\r'
      · rw [if_pos hr]
        cases xs with
        | nil => simp
        | cons y ys =>
          by_cases hy : y = '\n'
          · subst hy
            simp
          · cases hss : splitLinesChars (y :: ys) with
            | nil => exact absurd hss ih
            | cons p ps => (cases y; simp_all)
      · rw [if_neg hr]
        cases hss : splitLinesChars xs with
        | nil => exact absurd hss ih
        | cons p ps => simp [hss]

/-- Helper: the newline equation of the line splitter. -/
theorem splitLinesChars_cons_nl (xs : List Char) :
    splitLinesChars ('\n' :: xs) = [] :: splitLinesChars xs := by
  conv_lhs => unfold splitLinesChars
  rw [if_pos rfl]

/-- Helper: the CRLF equation of the line splitter. -/
theorem splitLinesChars_crnl (xs : List Char) :
    splitLinesChars ('\r' :: '\n' :: xs) = [] :: splitLinesChars xs := by
  conv_lhs => unfold splitLinesChars
  rw [if_neg (by decide), if_pos rfl]
  rfl

/-- Helper: the no-separator equation of the line splitter. -/
theorem splitLinesChars_cons_generic (x : Char) (xs : List Char)
    (hx : x ≠ '\n') (hxr : x = '\r' → xs.head? ≠ some '\n')
    (q : List Char) (qs : List (List Char))
    (hss : splitLinesChars xs = q :: qs) :
    splitLinesChars (x :: xs) = (x :: q) :: qs := by
  conv_lhs => unfold splitLinesChars
  rw [if_neg hx]
  by_cases hr : x = '\r'
  · rw [if_pos hr]
    cases xs with
    | nil =>
      have h1 : splitLinesChars ([] : List Char) = [[]] := rfl
      rw [h1] at hss
      injection hss with hq hqs
      subst hq
      subst hqs
      rfl
    | cons y ys =>
      have hy : y ≠ '\n' := fun h => (hxr hr) (by simp [h])
      split
      · rename_i rest heq
        injection heq with h1 _
        exact absurd h1 hy
      · rename_i heq
        cases heq
      · rename_i y1 ys1 heq
        injection heq with h1 h2
        subst h1
        subst h2
        rw [hss]
  · rw [if_neg hr, hss]

/-- Helper: the first line piece is a prefix of the split character
list. -/
theorem splitLinesChars_head_prefix :
    ∀ (n : Nat) (l : List Char), l.length ≤ n →
      ∀ p, (splitLinesChars l).head? = some p → p <+: l := by
  intro n
  induction n with
  | zero =>
    intro l hl p hp
    have hnil : l = [] := List.length_eq_zero.mp (Nat.le_zero.mp hl)
    subst hnil
    simp [splitLinesChars] at hp
    simp [hp]
  | succ n ih =>
    intro l hl p hp
    cases l with
    | nil =>
      simp [splitLinesChars] at hp
      simp [hp]
    | cons x xs =>
      by_cases hx : x = '\n'
      · subst hx
        rw [splitLinesChars_cons_nl] at hp
        simp at hp
        simp [hp]
      · by_cases hcr : x = '\r' ∧ xs.head? = some '\n'
        · obtain ⟨rfl, hhd⟩ := hcr
          cases xs with
          | nil => simp at hhd
          | cons y ys =>
            have hy : y = '\n' := by simpa using hhd
            subst hy
            rw [splitLinesChars_crnl] at hp
            simp at hp
            simp [hp]
        · have hxr : x = '\r' → xs.head? ≠ some '\n' := by
            intro h1 h2
            exact hcr ⟨h1, h2⟩
          cases hss : splitLinesChars xs with
          | nil => exact absurd hss (splitLinesChars_ne_nil xs)
          | cons q qs =>
            rw [splitLinesChars_cons_generic x xs hx hxr q qs hss] at hp
            simp at hp
            subst hp
            have hq : q <+: xs :=
              ih xs (by simpa using hl) q (by rw [hss]; rfl)
            rcases hq with ⟨t, ht⟩
            exact ⟨t, by rw [List.cons_append, ht]⟩

/-- Helper: every line piece is an infix of the split character list. -/
theorem splitLinesChars_infix :
    ∀ (n : Nat) (l : List Char), l.length ≤ n →
      ∀ p ∈ splitLinesChars l, p <:+: l := by
  intro n
  induction n with
  | zero =>
    intro l hl p hp
    have hnil : l = [] := List.length_eq_zero.mp (Nat.le_zero.mp hl)
    subst hnil
    simp [splitLinesChars] at hp
    simp [hp]
  | succ n ih =>
    intro l hl p hp
    cases l with
    | nil =>
      simp [splitLinesChars] at hp
      simp [hp]
    | cons x xs =>
      by_cases hx : x = '\n'
      · subst hx
        rw [splitLinesChars_cons_nl] at hp
        rcases List.mem_cons.mp hp with rfl | hp
        · simp
        · exact (ih xs (by simpa using hl) p hp).trans
            (List.infix_cons (List.infix_refl xs))
      · by_cases hcr : x = '\r' ∧ xs.head? = some '\n'
        · obtain ⟨rfl, hhd⟩ := hcr
          cases xs with
          | nil => simp at hhd
          | cons y ys =>
            have hy : y = '\n' := by simpa using hhd
            subst hy
            rw [splitLinesChars_crnl] at hp
            rcases List.mem_cons.mp hp with rfl | hp
            · simp
            · refine (ih ys (by simp at hl; omega) p hp).trans ?_
              exact List.infix_cons (List.infix_cons (List.infix_refl ys))
        · have hxr : x = '\r' → xs.head? ≠ some '\n' := by
            intro h1 h2
            exact hcr ⟨h1, h2⟩
          cases hss : splitLinesChars xs with
          | nil => exact absurd hss (splitLinesChars_ne_nil xs)
          | cons q qs =>
            rw [splitLinesChars_cons_generic x xs hx hxr q qs hss] at hp
            rcases List.mem_cons.mp hp with rfl | hp
            · have hq : q <+: xs :=
                splitLinesChars_head_prefix xs.length xs (le_refl _) q
                  (by rw [hss]; rfl)
              rcases hq with ⟨t, ht⟩
              exact List.IsPrefix.isInfix ⟨t, by rw [List.cons_append, ht]⟩
            · exact (ih xs (by simpa using hl) p
                (hss ▸ List.mem_cons_of_mem _ hp)).trans
                (List.infix_cons (List.infix_refl xs))

/-- Helper: every stored line is an infix of the stored text. -/
theorem splitLines_infix (s : String) :
    ∀ line ∈ splitLines s, line.data <:+: s.data := by
  intro line hline
  rcases List.mem_map.mp hline with ⟨p, hp, rfl⟩
  exact splitLinesChars_infix s.data.length s.data (le_refl _) p hp

/-- Helper: `buildIndexedFile` stores consistent line and lowercase
fields. -/
theorem buildIndexedFile_textConsistent (P : MetaParsers)
    (payload : IndexFilePayload) :
    textConsistent (buildIndexedFile P payload) :=
  ⟨rfl, rfl, rfl⟩

/-- Helper: the clamped result bound is at least 20, hence positive. -/
theorem clampMaxResults_pos (options : SearchOptions) :
    0 < clampMaxResults options := by
  unfold clampMaxResults
  omega

/-- Helper: with a non-blank query and a successfully compiled regex
option, the response's results are those of the scan. -/
theorem runSearch_results_ok (compile : RegexCompiler)
    (workspaces : Workspaces) (request : SearchRequest)
    (regex : Option (String → Bool))
    (hq : jsTrim request.query ≠ "")
    (hok : (if request.options.regex then
              (compile (jsTrim request.query)
                (if request.options.caseSensitive then "" else "i")).map some
            else Except.ok none) = Except.ok regex) :
    (runSearch compile workspaces request).results =
      (runSearchState regex
        ((mapGet workspaces request.workspaceId).getD emptyWorkspace)
        request).results := by
  simp only [runSearch]
  rw [if_neg (fun h => hq h.1)]
  rw [hok]

/-- Helper: with a query present and no regex, a qualifying line forces
the whole-file pre-check to pass (the line is an infix of the text, and
substring containment is monotone under infix extension, also through
the character-wise lowercase map). -/
theorem filePreCheck_of_qualifies (C : SearchCtx) (e : IndexedFile)
    (hq0 : C.query ≠ "") (hreg : C.regex = none) (hc : textConsistent e)
    (i : Nat) (hi : i < e.lines.length)
    (hql : lineQualifies C e i = true) :
    filePreCheck C e = true := by
  obtain ⟨hlines, hlower, htext⟩ := hc
  simp only [lineQualifies, Bool.and_eq_true] at hql
  have hm := hql.1
  unfold lineQueryMatched at hm
  rw [if_pos hq0, hreg] at hm
  have hm2 : includesCaseAware (e.lines.getD i "") (e.lowerLines.getD i "")
      C.query C.options.caseSensitive = true := hm
  have hgetd : e.lines.getD i "" = e.lines[i] := by
    simp [List.getD_eq_getElem?_getD, List.getElem?_eq_getElem hi]
  have hline : (e.lines.getD i "").data <:+: e.text.data := by
    have hmem : e.lines.getD i "" ∈ splitLines e.text := by
      rw [← hlines, hgetd]
      exact List.getElem_mem hi
    exact splitLines_infix e.text _ hmem
  have hgetd2 : e.lowerLines.getD i "" = jsToLower (e.lines.getD i "") := by
    rw [hlower]
    have hi2 : i < (e.lines.map jsToLower).length := by
      rw [List.length_map]
      exact hi
    simp [List.getD_eq_getElem?_getD, List.getElem?_eq_getElem hi2,
      List.getElem?_eq_getElem hi, hgetd]
  unfold filePreCheck
  rw [hreg]
  show includesCaseAware e.text e.lowerText C.query
    C.options.caseSensitive = true
  unfold includesCaseAware at hm2 ⊢
  by_cases hcs : C.options.caseSensitive = true
  · rw [if_pos hcs] at hm2 ⊢
    simp only [jsIncludes, decide_eq_true_eq] at hm2 ⊢
    exact hm2.trans hline
  · rw [if_neg hcs] at hm2 ⊢
    rw [hgetd2] at hm2
    simp only [jsIncludes, decide_eq_true_eq] at hm2 ⊢
    rw [htext]
    have hmap : (e.lines.getD i "").data.map Char.toLower <:+:
        e.text.data.map Char.toLower := hline.map _
    exact hm2.trans hmap

/-- Helper: in text mode over a consistently indexed file, the
whole-file pre-check drops nothing: either it passes, or no line
qualifies. -/
theorem fileResultsSpec_eq_plain (C : SearchCtx) (e : IndexedFile)
    (hq0 : C.query ≠ "") (hreg : C.regex = none)
    (hc : textConsistent e) :
    fileResultsSpec C e = fileResultsPlain C e := by
  by_cases hpre : filePreCheck C e = true
  · unfold fileResultsSpec fileResultsPlain
    rw [if_pos hpre]
  · have hnil : qualifyingIdxs C e = [] := by
      unfold qualifyingIdxs
      rw [List.filter_eq_nil_iff]
      intro j hj hqlj
      exact hpre
        (filePreCheck_of_qualifies C e hq0 hreg hc j (List.mem_range.mp hj) hqlj)
    unfold fileResultsSpec fileResultsPlain
    rw [if_neg hpre, hnil]
    rfl

/-- Claim C1: over a committed workspace index with a non-blank query
and a successfully compiled regex option, the response's result list is
exactly the first clamped-maxResults qualifying lines, file by file in
collection order — as filtered by the whole-file pre-check
(`fileResultsSpec`); and in text mode, over consistently indexed files,
the pre-check is sound, so the result list is exactly the qualifying
lines with no pre-check at all (`fileResultsPlain`): one result per line
matching the query and every supplied filter, none omitted within the
bound. -/
theorem search_scan_results (compile : RegexCompiler)
    (workspaces : Workspaces) (request : SearchRequest)
    (regex : Option (String → Bool))
    (hq : jsTrim request.query ≠ "")
    (hok : (if request.options.regex then
              (compile (jsTrim request.query)
                (if request.options.caseSensitive then "" else "i")).map some
            else Except.ok none) = Except.ok regex) :
    (runSearch compile workspaces request).results =
      (((((mapGet workspaces request.workspaceId).getD
          emptyWorkspace).files.map
        (fun p => fileResultsSpec (mkSearchCtx regex request) p.2)).flatten).take
        (clampMaxResults request.options)) ∧
    (request.options.regex = false →
      (∀ e ∈ ((mapGet workspaces request.workspaceId).getD
          emptyWorkspace).files, textConsistent e.2) →
      (runSearch compile workspaces request).results =
        (((((mapGet workspaces request.workspaceId).getD
            emptyWorkspace).files.map
          (fun p => fileResultsPlain (mkSearchCtx none request) p.2)).flatten).take
          (clampMaxResults request.options))) := by
  have hCq : (mkSearchCtx regex request).query ≠ "" := hq
  have h1 : (runSearch compile workspaces request).results =
      (((((mapGet workspaces request.workspaceId).getD
          emptyWorkspace).files.map
        (fun p => fileResultsSpec (mkSearchCtx regex request) p.2)).flatten).take
        (clampMaxResults request.options)) := by
    rw [runSearch_results_ok compile workspaces request regex hq hok]
    have h0 : emptyState.results.length < (mkSearchCtx regex request).maxResults :=
      clampMaxResults_pos request.options
    unfold runSearchState
    rw [searchFiles_results (mkSearchCtx regex request) hCq
      (((mapGet workspaces request.workspaceId).getD
        emptyWorkspace).files.map (fun p => p.2)) emptyState h0]
    simp [emptyState, List.map_map, Function.comp_def, mkSearchCtx]
  refine ⟨h1, fun hreg hcons => ?_⟩
  have hnone : regex = none := by
    rw [hreg] at hok
    simp at hok
    exact hok.symm
  subst hnone
  rw [h1]
  exact congrArg
    (fun L => (List.flatten L).take (clampMaxResults request.options))
    (List.map_congr_left fun p hp =>
      fileResultsSpec_eq_plain (mkSearchCtx none request) p.2 hCq rfl
        (hcons p hp))

/-- Witness for C1 at a concrete text-mode input: searching `foo` over
the one-file workspace returns exactly the pre-check-free qualifying
lines. -/
theorem search_scan_results_witness :
    jsTrim plainFooRequest.query ≠ "" ∧
    (runSearch anchoredCompiler anchoredWorkspaces plainFooRequest).results =
      (((((mapGet anchoredWorkspaces plainFooRequest.workspaceId).getD
          emptyWorkspace).files.map
        (fun p => fileResultsPlain (mkSearchCtx none plainFooRequest) p.2)).flatten).take
        (clampMaxResults plainFooRequest.options)) :=
  ⟨by decide,
   (search_scan_results anchoredCompiler anchoredWorkspaces plainFooRequest
      none (by decide) rfl).2 rfl
      (by
        intro e he
        have hfs : ((mapGet anchoredWorkspaces
            plainFooRequest.workspaceId).getD emptyWorkspace).files =
            [("k", anchoredEntry)] := rfl
        rw [hfs] at he
        have he2 : e = ("k", anchoredEntry) := by simpa using he
        rw [he2]
        exact buildIndexedFile_textConsistent stubParsers _)⟩

/-- Counterexample to claim C1 as stated: in regex mode the whole-file
pre-check runs the (anchored) regex against the entire file text, so for
the file `bar\x0afoo` and the pattern matching exactly `foo`, line 2
qualifies on its own and the result budget is positive, yet the response
carries no results — a qualifying line within the bound is omitted. -/
theorem anchored_regex_line_omitted :
    (runSearch anchoredCompiler anchoredWorkspaces anchoredRequest).results
      = [] ∧
    lineQualifies (mkSearchCtx (some anchoredFooRegex) anchoredRequest)
      anchoredEntry 1 = true ∧
    0 < clampMaxResults anchoredRequest.options :=
  ⟨rfl, by decide, by decide⟩
